import Mathlib

namespace Blade

/-!
Verification of the Blade Spectre-mitigation pass
(src/cranelift/codegen/src/blade.rs of PLSysSec/wasmtime-blade).

The development shallowly embeds the data model and the operations of the
pass: the flow network and its min-cut reconstruction, the ancestor tracer,
the network builder over an SSA function, the fence planner, and the SLH
(speculative-load-hardening) rewriter.  Machine integers are modelled as
natural numbers reduced modulo two to the word width; the external max-flow
solver (the rs_graph crate, an external collaborator per the specification)
is modelled by its contract: it hands back the set of nodes on the source
side of a minimum cut.
-/

/-- Association-list lookup, modelling the HashMaps of the Rust code
(insertion conses the new binding in front, lookup takes the first hit). -/
def alookup {α β : Type} [DecidableEq α] : List (α × β) → α → Option β
  | [], _ => none
  | (k, v) :: rest, a => if a = k then some v else alookup rest a

/-! ## The flow network

Mirrors `struct BladeGraph`'s underlying `LinkedListGraph`: a directed graph
whose nodes are numbered `0, 1, ...` with node `0` the global source and
node `1` the global sink (the first two `add_node` calls of
`BladeGraphBuilder::with_nodes_for_func`); edges are listed in insertion
order, and an edge is identified by its index in that list. -/

structure FlowGraph where
  numNodes : Nat
  edges : List (Nat × Nat)
  source : Nat
  sink : Nat
deriving DecidableEq, Repr

/-- The outgoing edges of a node, as (edge id, (src, dst)) pairs; mirrors
`self.graph.outedges(node)`. -/
def FlowGraph.outedges (g : FlowGraph) (n : Nat) : List (Nat × (Nat × Nat)) :=
  g.edges.enum.filter (fun p => p.2.1 = n)

/-- The incoming edges of a node, as the list of their origin nodes;
mirrors the use of `self.graph.inedges(node)` (only the origin of each
inedge is ever consulted). -/
def FlowGraph.inedgeSources (g : FlowGraph) (n : Nat) : List Nat :=
  (g.edges.filter (fun e => e.2 = n)).map (fun e => e.1)

/-- Mirrors `BladeGraph::min_cut` after the external solver has run:
`reachable` is the node set the solver reports as still reachable from the
source once the graph is cut (`maxflow.mincut()`), and the function
recreates the cut as every edge leaving that set. -/
def min_cut (g : FlowGraph) (reachable : List Nat) : List Nat :=
  ((reachable.bind (fun n => g.outedges n)).filter
      (fun p => ¬ p.2.2 ∈ reachable)).map (fun p => p.1)

/-- Reachability along edges whose ids are not in `removed`: the meaning of
"removing the cut edges leaves no directed path". -/
inductive Reaches (g : FlowGraph) (removed : List Nat) : Nat → Nat → Prop
  | refl (a : Nat) : Reaches g removed a a
  | step {a b c : Nat} (i : Nat) (hi : i ∉ removed)
      (he : g.edges.get? i = some (b, c)) (h : Reaches g removed a b) :
      Reaches g removed a c

/-! ## Unit-capacity flows

`min_cut` weighs every edge 1 (`maxflow.solve(source, sink, |_| 1)`), so a
flow assigns each edge 0 or 1 and is conserved at every interior node.  The
external push-relabel solver is used through its contract (spec section
4.3): it produces a maximum flow together with the residual-reachable node
set, whose crossing edges are exactly saturated. -/

/-- The edges of the graph paired with their flow amounts. -/
def edgeFlows (g : FlowGraph) (fl : List Nat) : List ((Nat × Nat) × Nat) :=
  g.edges.zip fl

/-- Total flow leaving node `v`. -/
def outflow (g : FlowGraph) (fl : List Nat) (v : Nat) : Nat :=
  (((edgeFlows g fl).filter (fun p => p.1.1 = v)).map (fun p => p.2)).sum

/-- Total flow entering node `v`. -/
def inflow (g : FlowGraph) (fl : List Nat) (v : Nat) : Nat :=
  (((edgeFlows g fl).filter (fun p => p.1.2 = v)).map (fun p => p.2)).sum

/-- A feasible flow under unit capacities: one amount per edge, each at
most 1, conserved at every node other than the two terminals. -/
def IsFlow (g : FlowGraph) (fl : List Nat) : Prop :=
  fl.length = g.edges.length ∧ (∀ x ∈ fl, x ≤ 1) ∧
  ∀ v, v < g.numNodes → v ≠ g.source → v ≠ g.sink →
    inflow g fl v = outflow g fl v

/-- The value of a flow: net flow out of the source. -/
def flowValue (g : FlowGraph) (fl : List Nat) : Int :=
  (outflow g fl g.source : Int) - (inflow g fl g.source : Int)

/-- The predicate that `k` is the maximum achievable flow value between
source and sink. -/
def IsMaxFlowValue (g : FlowGraph) (k : Nat) : Prop :=
  (∃ fl, IsFlow g fl ∧ flowValue g fl = (k : Int)) ∧
  ∀ fl, IsFlow g fl → flowValue g fl ≤ (k : Int)

/-- Net outflow of a node, as an integer. -/
def netout (g : FlowGraph) (fl : List Nat) (v : Nat) : Int :=
  (outflow g fl v : Int) - (inflow g fl v : Int)

/-! ## The ancestor tracer

`BladeGraph::ancestors_of` recurses backwards through inedges with no
visited set, so on a cyclic network the recursion need not terminate.  The
embedding makes the possible divergence explicit with a fuel argument:
`none` means the walk has not finished within the given number of nested
calls, and divergence is "`none` for every fuel". -/

/-- Mirrors `BladeGraph::is_source_node`: does the node have an edge from
the global source to it? -/
def is_source_node (g : FlowGraph) (n : Nat) : Bool :=
  (g.inedgeSources n).any (fun m => m = g.source)

/-- Sequences a list of optional lists, concatenating on full success;
models flattening the nested recursive iterators of `ancestors_of`. -/
def seqJoin {α : Type} : List (Option (List α)) → Option (List α)
  | [] => some []
  | none :: _ => none
  | some l :: rest => (seqJoin rest).map (fun r => l ++ r)

/-- Mirrors `BladeGraph::ancestors_of`: a source node yields itself, any
other node recurses through all of its inedges. -/
def ancestors_of (g : FlowGraph) : Nat → Nat → Option (List Nat)
  | 0, _ => none
  | fuel + 1, node =>
    if is_source_node g node then some [node]
    else seqJoin ((g.inedgeSources node).map (fun m => ancestors_of g fuel m))

/-- The walk on `node` never finishes, whatever the fuel: the shape of a
diverging Rust recursion. -/
def AncestorsDiverge (g : FlowGraph) (node : Nat) : Prop :=
  ∀ fuel, ancestors_of g fuel node = none

/-! ## The SSA function

Values, instructions and blocks are opaque numeric identifiers.  An
instruction carries its opcode, fixed and variable argument lists
(`inst_fixed_args` / `inst_variable_args`; `inst_args` is their
concatenation), and result values.  A function holds its instruction table,
its blocks in layout order, the externally populated bounds map, per-value
type sizes in bytes, and the two fence-marker sets `pre_lfence` /
`post_lfence` that the pass mutates. -/

/-- The opcodes the pass inspects, with representatives for each Cranelift
opcode class it distinguishes. -/
inductive Opcode
  | load | uload | fill | fillNop
  | store | spill
  | brz | brnz | jump | brTable
  | indirectJump
  | call | callIndirect
  | iadd | iaddImm | iconst | ifcmp | selectif | isub | band
  | other
deriving DecidableEq, Repr

/-- Mirrors `Opcode::can_load`: the load family, including the stack-slot
reload (fill) variants. -/
def Opcode.can_load : Opcode → Bool
  | .load | .uload | .fill | .fillNop => true
  | _ => false

/-- Mirrors `Opcode::can_store`. -/
def Opcode.can_store : Opcode → Bool
  | .store | .spill => true
  | _ => false

/-- Mirrors `Opcode::is_branch`. -/
def Opcode.is_branch : Opcode → Bool
  | .brz | .brnz | .jump | .brTable => true
  | _ => false

/-- Mirrors `Opcode::is_indirect_branch`. -/
def Opcode.is_indirect_branch : Opcode → Bool
  | .indirectJump => true
  | _ => false

/-- Mirrors `Opcode::is_call`. -/
def Opcode.is_call : Opcode → Bool
  | .call | .callIndirect => true
  | _ => false

/-- The two condition codes the SLH rewrite emits. -/
inductive IntCC
  | uge
  | ule
deriving DecidableEq, Repr

/-- One instruction: opcode, fixed then variable arguments, results, plus
the immediate and condition-code payloads used by the SLH-emitted
instructions. -/
structure InstData where
  op : Opcode
  fixedArgs : List Nat
  varArgs : List Nat
  results : List Nat
  imm : Int := 0
  cc : Option IntCC := none
deriving DecidableEq, Repr

instance : Inhabited InstData := ⟨⟨Opcode.other, [], [], [], 0, none⟩⟩

/-- Mirrors `inst_args`: all arguments, fixed followed by variable. -/
def InstData.args (d : InstData) : List Nat := d.fixedArgs ++ d.varArgs

/-- The bounds attached to a pointer value: `[lower, upper)` plus the flag
separating analysis-derived from fabricated bounds. -/
structure BoundsInfo where
  lower : Nat
  upper : Nat
  directly_annotated : Bool
deriving DecidableEq, Repr

/-- One block: its parameter values and its instructions in layout order. -/
structure BlockData where
  params : List Nat
  insts : List Nat
deriving DecidableEq, Repr

instance : Inhabited BlockData := ⟨⟨[], []⟩⟩

/-- The mutable SSA function handed to the pass. -/
structure Func where
  numValues : Nat
  insts : List InstData
  blocks : List BlockData
  bounds : List (Nat × BoundsInfo)
  valueTypeBytes : List Nat
  pre_lfence : List Nat
  post_lfence : List Nat
deriving DecidableEq, Repr

def Func.instOf (f : Func) (i : Nat) : InstData := f.insts.getD i default

def Func.blockOf (f : Func) (b : Nat) : BlockData := f.blocks.getD b default

/-- All instructions of the function in layout order. -/
def layoutInsts (f : Func) : List Nat := f.blocks.bind (fun b => b.insts)

/-- Mirrors `ValueDef`: where a value is defined. -/
inductive VDef
  | result (inst : Nat) (num : Nat)
  | param (block : Nat) (num : Nat)
deriving DecidableEq, Repr

/-- Mirrors `func.dfg.value_def(v)`, reading the definition site off the
function body (`none` on a value the function never defines). -/
def valueDefOf (f : Func) (v : Nat) : Option VDef :=
  match f.blocks.enum.findSome? (fun p =>
      (p.2.params.findIdx? (fun x => x = v)).map (fun k => VDef.param p.1 k)) with
  | some d => some d
  | none => f.insts.enum.findSome? (fun p =>
      (p.2.results.findIdx? (fun x => x = v)).map (fun k => VDef.result p.1 k))

/-- The control-flow graph: for each block (by layout index), its
predecessors as (block, branch instruction) pairs. -/
def Cfg : Type := List (List (Nat × Nat))

def Cfg.predsOf (cfg : Cfg) (b : Nat) : List (Nat × Nat) :=
  List.getD cfg b []

/-- Mirrors `enum ValueUse` of the def-use graph. -/
inductive ValueUse
  | inst (i : Nat)
  | value (v : Nat)
deriving DecidableEq, Repr

/-- The uses of `v` contributed by one block: one `Inst` use per argument
occurrence in the block's instructions, then one `Value` use per
block-parameter forwarding from a predecessor branch (mirrors the two
loops of `DefUseGraph::for_function`). -/
def blockUses (f : Func) (cfg : Cfg) (bIdx : Nat) (b : BlockData) (v : Nat) : List ValueUse :=
  (b.insts.bind (fun i =>
      (((f.instOf i).args.filter (fun a => a = v)).map (fun _ => ValueUse.inst i))))
    ++ ((cfg.predsOf bIdx).bind (fun pred =>
        ((b.params.zip (f.instOf pred.2).varArgs).filter (fun q => q.2 = v)).map
          (fun q => ValueUse.value q.1)))

/-- Mirrors `DefUseGraph::uses_of_val`. -/
def usesOfVal (f : Func) (cfg : Cfg) (v : Nat) : List ValueUse :=
  f.blocks.enum.bind (fun p => blockUses f cfg p.1 p.2 v)

/-! ## The network builder -/

/-- Mirrors `enum BladeNode`. -/
inductive BladeNode
  | valueDef (v : Nat)
  | sink (i : Nat)
deriving DecidableEq, Repr

/-- Mirrors `BladeGraphBuilder`: the graph under construction.  Node `0` is
the global source, node `1` the global sink, nodes `2 + v` the values, and
`nextNode` the next free node id. -/
structure BuilderState where
  nextNode : Nat
  edges : List (Nat × Nat)
  nodeToBlade : List (Nat × BladeNode)
  bladeToNode : List (BladeNode × Nat)
deriving Repr

/-- Mirrors `BladeGraphBuilder::with_nodes_for_func`: source and sink get
nodes 0 and 1, then one node per value in order. -/
def initBuilder (f : Func) : BuilderState :=
  { nextNode := 2 + f.numValues
  , edges := []
  , nodeToBlade := (List.range f.numValues).map (fun v => (2 + v, BladeNode.valueDef v))
  , bladeToNode := (List.range f.numValues).map (fun v => (BladeNode.valueDef v, 2 + v)) }

/-- The node of a value, via the builder's `bladenode_to_node_map`. -/
def BuilderState.valueNode (st : BuilderState) (v : Nat) : Nat :=
  (alookup st.bladeToNode (BladeNode.valueDef v)).getD 0

/-- Mirrors `BladeGraphBuilder::mark_as_source`. -/
def mark_as_source (st : BuilderState) (v : Nat) : BuilderState :=
  { st with edges := st.edges ++ [(0, st.valueNode v)] }

/-- Mirrors `BladeGraphBuilder::add_edge_from_value_to_node`. -/
def add_edge_from_value_to_node (st : BuilderState) (v : Nat) (n : Nat) : BuilderState :=
  { st with edges := st.edges ++ [(st.valueNode v, n)] }

/-- Mirrors `BladeGraphBuilder::add_edge_from_node_to_value`. -/
def add_edge_from_node_to_value (st : BuilderState) (n : Nat) (v : Nat) : BuilderState :=
  { st with edges := st.edges ++ [(n, st.valueNode v)] }

/-- Mirrors `BladeGraphBuilder::add_sink_node_for_inst`: a fresh node
mapped to `Sink inst`, wired to the global sink, and returned. -/
def add_sink_node_for_inst (st : BuilderState) (i : Nat) : BuilderState × Nat :=
  ({ nextNode := st.nextNode + 1
    , edges := st.edges ++ [(st.nextNode, 1)]
    , nodeToBlade := (st.nextNode, BladeNode.sink i) :: st.nodeToBlade
    , bladeToNode := (BladeNode.sink i, st.nextNode) :: st.bladeToNode }, st.nextNode)

/-- The classification step of `build_blade_graph_for_func` for a single
instruction: loads are sources and (except fills) sinks, stores and
branches are sinks, calls are sources and sinks. -/
def processInst (svs : Bool) (f : Func) (st : BuilderState) (i : Nat) : BuilderState :=
  let d := f.instOf i
  let op := d.op
  let st1 :=
    if op.can_load then
      let sta := d.results.foldl mark_as_source st
      if op = Opcode.fill ∨ op = Opcode.fillNop then sta
      else
        let pair := add_sink_node_for_inst sta i
        d.args.foldl (fun s a => add_edge_from_value_to_node s a pair.2) pair.1
    else if op.can_store then
      let pair := add_sink_node_for_inst st i
      if svs then
        d.args.foldl (fun s a => add_edge_from_value_to_node s a pair.2) pair.1
      else
        (d.args.drop 1).foldl (fun s a => add_edge_from_value_to_node s a pair.2) pair.1
    else if op.is_branch then
      let pair := add_sink_node_for_inst st i
      d.fixedArgs.foldl (fun s a => add_edge_from_value_to_node s a pair.2) pair.1
    else st
  if op.is_call then
    let st2 := d.results.foldl mark_as_source st1
    let pair := add_sink_node_for_inst st2 i
    d.args.foldl (fun s a => add_edge_from_value_to_node s a pair.2) pair.1
  else st1

/-- The first loop of `build_blade_graph_for_func`: classify every
instruction of every block in layout order. -/
def classifyPass (svs : Bool) (f : Func) : BuilderState :=
  f.blocks.foldl (fun st b => b.insts.foldl (processInst svs f) st) (initBuilder f)

/-- One def-use edge of the second loop. -/
def dataflowStep (f : Func) (node : Nat) (st : BuilderState) (u : ValueUse) : BuilderState :=
  match u with
  | ValueUse.inst iu =>
    (f.instOf iu).results.foldl (fun s r => add_edge_from_node_to_value s node r) st
  | ValueUse.value vu => add_edge_from_node_to_value st node vu

/-- The second loop of `build_blade_graph_for_func`: one edge bundle per
use of every value. -/
def dataflowPass (f : Func) (cfg : Cfg) (st : BuilderState) : BuilderState :=
  (List.range f.numValues).foldl (fun st v =>
    (usesOfVal f cfg v).foldl (dataflowStep f (st.valueNode v)) st) st

/-- Mirrors `struct BladeGraph`. -/
structure BladeGraph where
  graph : FlowGraph
  nodeToBlade : List (Nat × BladeNode)
  bladeToNode : List (BladeNode × Nat)
deriving Repr

/-- Mirrors `build_blade_graph_for_func`. -/
def build_blade_graph_for_func (f : Func) (cfg : Cfg)
    (store_values_are_sinks : Bool) : BladeGraph :=
  let st := dataflowPass f cfg (classifyPass store_values_are_sinks f)
  { graph := { numNodes := st.nextNode, edges := st.edges, source := 0, sink := 1 }
  , nodeToBlade := st.nodeToBlade
  , bladeToNode := st.bladeToNode }

/-- The network `do_blade` builds (blade.rs line 38): the
`store_values_are_sinks` flag is fixed to `true` at the only call site of
the builder. -/
def do_blade_graph (f : Func) (cfg : Cfg) : BladeGraph :=
  build_blade_graph_for_func f cfg true

/-- Well-formed input IR: layout lists each instruction once and in range,
and all argument/result/parameter values exist. -/
def WF (f : Func) : Prop :=
  (layoutInsts f).Nodup ∧
  (∀ i ∈ layoutInsts f, i < f.insts.length) ∧
  (∀ d ∈ f.insts, (∀ a ∈ d.fixedArgs, a < f.numValues) ∧
      (∀ a ∈ d.varArgs, a < f.numValues) ∧ (∀ r ∈ d.results, r < f.numValues)) ∧
  (∀ b ∈ f.blocks, ∀ p ∈ b.params, p < f.numValues)

instance (f : Func) : Decidable (WF f) := by
  unfold WF
  infer_instance

/-- How many graph nodes are mapped to `Sink i`. -/
def sinkCount (g : BladeGraph) (i : Nat) : Nat :=
  g.nodeToBlade.countP (fun p => p.2 = BladeNode.sink i)

/-- How many sink nodes the classification step allocates for an opcode. -/
def expectedSinks (op : Opcode) : Nat :=
  (if op.can_load then (if op = Opcode.fill ∨ op = Opcode.fillNop then 0 else 1)
   else if op.can_store then 1
   else if op.is_branch then 1
   else 0)
  + (if op.is_call then 1 else 0)

/-! ## Builder invariants -/

/-- Sink-node count for an instruction, on a raw builder state. -/
def sinkCountSt (st : BuilderState) (j : Nat) : Nat :=
  st.nodeToBlade.countP (fun p => p.2 = BladeNode.sink j)

/-- Value-node lookups resolve: value `v` sits at node `2 + v`. -/
def LookupInv (f : Func) (st : BuilderState) : Prop :=
  ∀ v, v < f.numValues →
    alookup st.bladeToNode (BladeNode.valueDef v) = some (2 + v)

/-- Every edge out of the global source targets a value node, and every
edge into the global sink leaves a node mapped to a `Sink`. -/
def EdgeShape (f : Func) (st : BuilderState) : Prop :=
  ∀ e ∈ st.edges,
    (e.1 = 0 → ∃ v, v < f.numValues ∧ e.2 = 2 + v ∧
        (2 + v, BladeNode.valueDef v) ∈ st.nodeToBlade) ∧
    (e.2 = 1 → ∃ i, (e.1, BladeNode.sink i) ∈ st.nodeToBlade)

/-- The running builder invariant. -/
def GoodState (f : Func) (st : BuilderState) : Prop :=
  2 + f.numValues ≤ st.nextNode ∧ LookupInv f st ∧ EdgeShape f st ∧
  (∀ v, v < f.numValues → (2 + v, BladeNode.valueDef v) ∈ st.nodeToBlade)

/-- One builder state extends another: edges and node map only grow, value
lookups never change, the node counter never decreases. -/
def Extends (st st' : BuilderState) : Prop :=
  st.nextNode ≤ st'.nextNode ∧
  (∀ e ∈ st.edges, e ∈ st'.edges) ∧
  (∀ p ∈ st.nodeToBlade, p ∈ st'.nodeToBlade) ∧
  (∀ v, alookup st'.bladeToNode (BladeNode.valueDef v)
      = alookup st.bladeToNode (BladeNode.valueDef v))

/-- Argument and result values of an instruction all exist in the
function. -/
def InstOK (f : Func) (d : InstData) : Prop :=
  (∀ a ∈ d.args, a < f.numValues) ∧ (∀ r ∈ d.results, r < f.numValues)

/-! ## The fence planner

Mirrors `do_blade`'s `Lfence`/`LfencePerBlock` arm and the helpers
`insert_fence_before`, `insert_fence_after` and
`insert_fence_at_beginning_of_block`.  Rust panics become error values. -/

/-- Mirrors `settings::Blade`. -/
inductive BladeSetting
  | none
  | lfence
  | lfencePerBlock
  | slh
deriving DecidableEq, Repr

/-- The distinct fatal conditions of the fence planner. -/
inductive FenceErr
  | afterSink
  | noDef
  | emptyBlock
  | notInLayout
  | badSetting
  | noEdge
  | noBladeNode
deriving DecidableEq, Repr

/-- Mirrors `func.pre_lfence[inst] = true`. -/
def setPre (f : Func) (i : Nat) : Func := { f with pre_lfence := f.pre_lfence.insert i }

/-- Mirrors `func.post_lfence[inst] = true`. -/
def setPost (f : Func) (i : Nat) : Func := { f with post_lfence := f.post_lfence.insert i }

/-- Mirrors `func.layout.first_inst(block)`. -/
def firstInst (f : Func) (b : Nat) : Option Nat := (f.blockOf b).insts.head?

/-- Mirrors `func.layout.inst_block(inst)`. -/
def instBlock (f : Func) (i : Nat) : Option Nat :=
  (f.blocks.enum.find? (fun p => p.2.insts.contains i)).map (fun p => p.1)

/-- A fine-grained basic-block boundary: call, branch or indirect branch
(the test of the backward loop). -/
def isBoundary (op : Opcode) : Bool :=
  op.is_call || op.is_branch || op.is_indirect_branch

/-- The backward loop of `insert_fence_at_beginning_of_block` over the
block's instruction list `l`, starting at position `k`: reaching position
0 fences before the first instruction, otherwise the instruction one step
back is checked for being a boundary and fenced after if it is one. -/
def scanBack (f : Func) (l : List Nat) : Nat → Func
  | 0 => setPre f (l.getD 0 0)
  | k + 1 =>
    let c := l.getD k 0
    if isBoundary (f.instOf c).op then setPost f c
    else scanBack f l k

/-- Mirrors `insert_fence_at_beginning_of_block`. -/
def insert_fence_at_beginning_of_block (f : Func) (i : Nat) : Except FenceErr Func :=
  match instBlock f i with
  | Option.none => Except.error FenceErr.notInLayout
  | some b => Except.ok (scanBack f (f.blockOf b).insts ((f.blockOf b).insts.indexOf i))

/-- Mirrors `insert_fence_before`. -/
def insert_fence_before (f : Func) (bnode : BladeNode) (s : BladeSetting) :
    Except FenceErr Func :=
  match bnode with
  | BladeNode.valueDef val =>
    match valueDefOf f val with
    | some (VDef.result inst _) =>
      match s with
      | BladeSetting.lfence => Except.ok (setPre f inst)
      | BladeSetting.lfencePerBlock => insert_fence_at_beginning_of_block f inst
      | _ => Except.error FenceErr.badSetting
    | some (VDef.param block _) =>
      match firstInst f block with
      | some fi => Except.ok (setPre f fi)
      | Option.none => Except.error FenceErr.emptyBlock
    | Option.none => Except.error FenceErr.noDef
  | BladeNode.sink inst =>
    match s with
    | BladeSetting.lfence => Except.ok (setPre f inst)
    | BladeSetting.lfencePerBlock => insert_fence_at_beginning_of_block f inst
    | _ => Except.error FenceErr.badSetting

/-- Mirrors `insert_fence_after`; note that a block parameter is fenced at
the very start of its block under both fence settings, and that a `Sink`
node is the panic `"Fencing after a sink instruction"`. -/
def insert_fence_after (f : Func) (bnode : BladeNode) (s : BladeSetting) :
    Except FenceErr Func :=
  match bnode with
  | BladeNode.valueDef val =>
    match valueDefOf f val with
    | some (VDef.result inst _) =>
      match s with
      | BladeSetting.lfence => Except.ok (setPost f inst)
      | BladeSetting.lfencePerBlock => insert_fence_at_beginning_of_block f inst
      | _ => Except.error FenceErr.badSetting
    | some (VDef.param block _) =>
      match firstInst f block with
      | some fi => Except.ok (setPre f fi)
      | Option.none => Except.error FenceErr.emptyBlock
    | Option.none => Except.error FenceErr.noDef
  | BladeNode.sink _ => Except.error FenceErr.afterSink

/-- Mirrors the `Lfence | LfencePerBlock` arm of `do_blade`'s per-cut-edge
match: classify the edge by its endpoints and fence accordingly. -/
def do_blade_fence_edge (f : Func) (g : BladeGraph) (s : BladeSetting)
    (eid : Nat) : Except FenceErr Func :=
  match g.graph.edges.get? eid with
  | Option.none => Except.error FenceErr.noEdge
  | some (a, b) =>
    if a = g.graph.source then
      match alookup g.nodeToBlade b with
      | some bn => insert_fence_after f bn s
      | Option.none => Except.error FenceErr.noBladeNode
    else if b = g.graph.sink then
      match alookup g.nodeToBlade a with
      | some bn => insert_fence_before f bn s
      | Option.none => Except.error FenceErr.noBladeNode
    else
      match alookup g.nodeToBlade b with
      | some bn => insert_fence_before f bn s
      | Option.none => Except.error FenceErr.noBladeNode

/-- The specification-side description of the backward scan: the nearest
boundary instruction strictly before position `k` in the block list `l`. -/
def lastBoundaryBefore (f : Func) (l : List Nat) (k : Nat) : Option Nat :=
  (List.range k).reverse.find? (fun j => isBoundary (f.instOf (l.getD j 0)).op)

/-! ## Speculative load hardening

Mirrors `SLHContext`, `_do_slh_on` and the constants configuring the
fabricated fallback bounds.  Panics and the `unimplemented` arm become
distinct error values. -/

/-- Mirrors `ALLOW_FAKE_SLH_BOUNDS` (blade.rs line 21). -/
def ALLOW_FAKE_SLH_BOUNDS : Bool := true

/-- Mirrors `FAKE_SLH_ARRAY_LENGTH_BYTES` (blade.rs line 25). -/
def FAKE_SLH_ARRAY_LENGTH_BYTES : Nat := 2345

/-- The fatal conditions of the SLH rewriter. -/
inductive SlhErr
  | sinkTarget
  | paramTarget
  | noDef
  | notLoad
  | multiplePointerArgs
  | missingBounds
  | noArgs
deriving DecidableEq, Repr

/-- Mirrors `func.dfg.bounds[v]`. -/
def boundsOf (f : Func) (v : Nat) : Option BoundsInfo := alookup f.bounds v

/-- Mirrors `func.dfg.value_type(v).bytes()`. -/
def typeBytes (f : Func) (v : Nat) : Nat := f.valueTypeBytes.getD v 0

/-- The outcome of the bounds-selection step of `_do_slh_on`: the chosen
argument slot and value, the bounds to use, and the instruction emitted to
fabricate the fallback upper bound (empty when real bounds exist). -/
structure SlhBounds where
  argnum : Nat
  arg : Nat
  bnds : BoundsInfo
  emitted : List InstData
deriving DecidableEq, Repr

/-- The bounds selection of `_do_slh_on` (blade.rs lines 264-290): exactly
one bounds-carrying argument is used as is; several are fatal; none falls
back to `lower = args[0]`, `upper = args[0] + FAKE_SLH_ARRAY_LENGTH_BYTES`
(a freshly emitted `iadd_imm`, value id `f.numValues`) when the
configuration permits, and is fatal otherwise. -/
def selectSlhBounds (allowFake : Bool) (f : Func) (inst : Nat) :
    Except SlhErr SlhBounds :=
  match (f.instOf inst).args.enum.filter (fun p => (boundsOf f p.2).isSome) with
  | [] =>
    if allowFake then
      match (f.instOf inst).args.head? with
      | Option.none => Except.error SlhErr.noArgs
      | some p =>
        Except.ok
          { argnum := 0, arg := p
          , bnds := { lower := p, upper := f.numValues, directly_annotated := false }
          , emitted := [{ op := Opcode.iaddImm, fixedArgs := [p], varArgs := []
                        , results := [f.numValues]
                        , imm := (FAKE_SLH_ARRAY_LENGTH_BYTES : Int)
                        , cc := Option.none }] }
    else Except.error SlhErr.missingBounds
  | [(num, arg)] =>
    match boundsOf f arg with
    | some b => Except.ok { argnum := num, arg := arg, bnds := b, emitted := [] }
    | Option.none => Except.error SlhErr.missingBounds
  | _ :: _ :: _ => Except.error SlhErr.multiplePointerArgs

/-- The nine instructions `_do_slh_on` emits in front of the load (blade.rs
lines 291-305): zero, all-ones, compare/select against the lower bound,
the operand size, the adjusted upper bound, compare/select against it, and
the final mask application; `base` is the first fresh value id. -/
def slhMaskSeq (f : Func) (p : Nat) (bnds : BoundsInfo) (loadedVal : Nat)
    (base : Nat) : List InstData :=
  [ { op := Opcode.iconst, fixedArgs := [], varArgs := [], results := [base]
    , imm := 0, cc := Option.none }
  , { op := Opcode.iconst, fixedArgs := [], varArgs := [], results := [base + 1]
    , imm := -1, cc := Option.none }
  , { op := Opcode.ifcmp, fixedArgs := [p, bnds.lower], varArgs := []
    , results := [base + 2], imm := 0, cc := Option.none }
  , { op := Opcode.selectif, fixedArgs := [base + 2, base + 1, base], varArgs := []
    , results := [base + 3], imm := 0, cc := some IntCC.uge }
  , { op := Opcode.iconst, fixedArgs := [], varArgs := [], results := [base + 4]
    , imm := (typeBytes f loadedVal : Int), cc := Option.none }
  , { op := Opcode.isub, fixedArgs := [bnds.upper, base + 4], varArgs := []
    , results := [base + 5], imm := 0, cc := Option.none }
  , { op := Opcode.ifcmp, fixedArgs := [p, base + 5], varArgs := []
    , results := [base + 6], imm := 0, cc := Option.none }
  , { op := Opcode.selectif, fixedArgs := [base + 6, base + 3, base], varArgs := []
    , results := [base + 7], imm := 0, cc := some IntCC.ule }
  , { op := Opcode.band, fixedArgs := [p, base + 7], varArgs := []
    , results := [base + 8], imm := 0, cc := Option.none }
  ]

/-- Mirrors `cur.func.dfg.inst_args_mut(inst)[pointer_arg_num] = masked`:
overwrite one argument slot in place. -/
def InstData.setArg (d : InstData) (k : Nat) (v : Nat) : InstData :=
  if k < d.fixedArgs.length then { d with fixedArgs := d.fixedArgs.set k v }
  else { d with varArgs := d.varArgs.set (k - d.fixedArgs.length) v }

/-- Splice the freshly emitted instruction ids immediately before `i`. -/
def insertBefore (insts : List Nat) (i : Nat) (newIds : List Nat) : List Nat :=
  insts.bind (fun j => if j = i then newIds ++ [j] else [j])

/-- Commit an SLH emission to the function: the new instructions are
appended to the instruction table, spliced before the load in the layout,
and the load's pointer slot is overwritten with the masked value. -/
def applyEmission (f : Func) (inst : Nat) (argnum : Nat) (emitted : List InstData)
    (maskedVal : Nat) (ptrArg : Nat) (newNumValues : Nat) : Func :=
  let newIds := List.range' f.insts.length emitted.length
  { f with
    numValues := newNumValues
  , insts := (f.insts.set inst ((f.instOf inst).setArg argnum maskedVal)) ++ emitted
  , blocks := f.blocks.map (fun b => { b with insts := insertBefore b.insts inst newIds })
  , valueTypeBytes := f.valueTypeBytes
      ++ List.replicate (newNumValues - f.numValues) (typeBytes f ptrArg) }

/-- Mirrors `_do_slh_on`. -/
def _do_slh_on (f : Func) (bnode : BladeNode) : Except SlhErr (Func × List InstData) :=
  match bnode with
  | BladeNode.sink _ => Except.error SlhErr.sinkTarget
  | BladeNode.valueDef value =>
    match valueDefOf f value with
    | some (VDef.param _ _) => Except.error SlhErr.paramTarget
    | Option.none => Except.error SlhErr.noDef
    | some (VDef.result inst _) =>
      if ¬ (f.instOf inst).op.can_load then Except.error SlhErr.notLoad
      else
        match selectSlhBounds ALLOW_FAKE_SLH_BOUNDS f inst with
        | Except.error e => Except.error e
        | Except.ok sb =>
          let base := f.numValues + sb.emitted.length
          let seq := slhMaskSeq f sb.arg sb.bnds value base
          Except.ok
            (applyEmission f inst sb.argnum (sb.emitted ++ seq) (base + 8)
              sb.arg (base + 9), sb.emitted ++ seq)

/-- The function after one raw hardening attempt; a fatal error (a Rust
panic, which aborts compilation) leaves the function untouched here so
that state passing stays total. -/
def applySlh (f : Func) (bn : BladeNode) : Func :=
  match _do_slh_on f bn with
  | Except.ok r => r.1
  | Except.error _ => f

/-- Mirrors `struct SLHContext`: the deduplicating ledger. -/
structure SLHContext where
  bladenodes_done : List BladeNode
deriving DecidableEq, Repr

/-- Mirrors `SLHContext::do_slh_on`: harden `bn` only if it was not
already hardened (`self.bladenodes_done.insert(bnode)`). -/
def SLHContext.do_slh_on (st : SLHContext × Func) (bn : BladeNode) :
    SLHContext × Func :=
  if bn ∈ st.1.bladenodes_done then st
  else (⟨bn :: st.1.bladenodes_done⟩, applySlh st.2 bn)

/-! ## Evaluation of the emitted mask computation

A small value semantics for the instruction forms the SLH rewrite emits,
with machine integers as naturals reduced modulo the word size and
comparison flags as the pair of compared values. -/

inductive EVal
  | int (n : Nat)
  | flags (a b : Nat)
deriving DecidableEq, Repr

def asNat : EVal → Nat
  | EVal.int n => n
  | EVal.flags _ _ => 0

/-- The two condition codes, read off a flags value. -/
def testCC : IntCC → EVal → Bool
  | IntCC.uge, EVal.flags a b => b ≤ a
  | IntCC.ule, EVal.flags a b => a ≤ b
  | _, EVal.int _ => false

/-- The value an emitted instruction produces under an environment. -/
def evalInstData (w : Nat) (env : Nat → EVal) (d : InstData) : EVal :=
  match d.op with
  | Opcode.iconst => EVal.int ((d.imm % (2 ^ w : Int)).toNat)
  | Opcode.iaddImm =>
    EVal.int ((((asNat (env (d.fixedArgs.getD 0 0)) : Int) + d.imm)
      % (2 ^ w : Int)).toNat)
  | Opcode.ifcmp =>
    EVal.flags (asNat (env (d.fixedArgs.getD 0 0))) (asNat (env (d.fixedArgs.getD 1 0)))
  | Opcode.selectif =>
    match d.cc with
    | some cc =>
      if testCC cc (env (d.fixedArgs.getD 0 0))
      then env (d.fixedArgs.getD 1 0) else env (d.fixedArgs.getD 2 0)
    | Option.none => EVal.int 0
  | Opcode.isub =>
    EVal.int ((asNat (env (d.fixedArgs.getD 0 0)) + 2 ^ w
      - asNat (env (d.fixedArgs.getD 1 0)) % 2 ^ w) % 2 ^ w)
  | Opcode.band =>
    EVal.int (Nat.land (asNat (env (d.fixedArgs.getD 0 0)))
      (asNat (env (d.fixedArgs.getD 1 0))))
  | _ => EVal.int 0

/-- Bind an instruction's (single) result in the environment. -/
def stepEnv (w : Nat) (env : Nat → EVal) (d : InstData) : Nat → EVal :=
  match d.results with
  | [r] => fun x => if x = r then evalInstData w env d else env x
  | _ => env

/-- Run a straight-line emitted sequence. -/
def evalSeq (w : Nat) (env : Nat → EVal) (l : List InstData) : Nat → EVal :=
  l.foldl (stepEnv w) env

/-! ## Concrete instances

Small functions exercising the pass: `exFunc` is the running example
`x = load addr; y = x + 1; br y` of the specification, `loopFunc` a
single-block self loop whose block parameter is forwarded to itself,
`cFunc` a call followed by a load, and `slhFunc` a load with annotated
bounds. -/

/-- A 3-node graph with one source-to-sink chain, used with the solver
contract instantiated by hand. -/
def exCutGraph : FlowGraph :=
  { numNodes := 3, edges := [(0, 2), (2, 1)], source := 0, sink := 1 }

/-- Scenario A: `v1 = load v0; v2 = iadd v1; brz v2`. -/
def exFunc : Func :=
  { numValues := 3
  , insts :=
      [ { op := Opcode.load, fixedArgs := [0], varArgs := [], results := [1] }
      , { op := Opcode.iadd, fixedArgs := [1], varArgs := [], results := [2] }
      , { op := Opcode.brz, fixedArgs := [2], varArgs := [], results := [] } ]
  , blocks := [ { params := [0], insts := [0, 1, 2] } ]
  , bounds := []
  , valueTypeBytes := [8, 8, 8]
  , pre_lfence := []
  , post_lfence := [] }

def exCfg : Cfg := [[]]

/-- A single block looping to itself and forwarding its own parameter:
`block0(v0): jump block0(v0)`. -/
def loopFunc : Func :=
  { numValues := 1
  , insts := [ { op := Opcode.jump, fixedArgs := [], varArgs := [0], results := [] } ]
  , blocks := [ { params := [0], insts := [0] } ]
  , bounds := []
  , valueTypeBytes := [8]
  , pre_lfence := []
  , post_lfence := [] }

def loopCfg : Cfg := [[(0, 0)]]

/-- The network the pass builds for `loopFunc`. -/
def loopGraph : FlowGraph := (do_blade_graph loopFunc loopCfg).graph

/-- A call followed by a load in the same block, for the per-block fence
coarsening. -/
def cFunc : Func :=
  { numValues := 2
  , insts :=
      [ { op := Opcode.call, fixedArgs := [], varArgs := [], results := [0] }
      , { op := Opcode.load, fixedArgs := [0], varArgs := [], results := [1] } ]
  , blocks := [ { params := [], insts := [0, 1] } ]
  , bounds := []
  , valueTypeBytes := [8, 8]
  , pre_lfence := []
  , post_lfence := [] }

/-- A load whose pointer argument `v2` carries the bounds `[v0, v1)`. -/
def slhFunc : Func :=
  { numValues := 4
  , insts :=
      [ { op := Opcode.load, fixedArgs := [2], varArgs := [], results := [3] } ]
  , blocks := [ { params := [0, 1, 2], insts := [0] } ]
  , bounds := [(2, { lower := 0, upper := 1, directly_annotated := true })]
  , valueTypeBytes := [8, 8, 8, 4]
  , pre_lfence := []
  , post_lfence := [] }

/-- The same load with no bounds annotation anywhere, for the fabricated
fallback. -/
def slhFuncNoBounds : Func :=
  { numValues := 4
  , insts :=
      [ { op := Opcode.load, fixedArgs := [2], varArgs := [], results := [3] } ]
  , blocks := [ { params := [0, 1, 2], insts := [0] } ]
  , bounds := []
  , valueTypeBytes := [8, 8, 8, 4]
  , pre_lfence := []
  , post_lfence := [] }

/-- Distinctness of the node map's keys: every key is below the node
counter and no key repeats. -/
def KeysOK (st : BuilderState) : Prop :=
  (∀ p ∈ st.nodeToBlade, p.1 < st.nextNode) ∧ (st.nodeToBlade.map Prod.fst).Nodup

instance (g : FlowGraph) (fl : List Nat) : Decidable (IsFlow g fl) := by
  unfold IsFlow
  infer_instance

/-! ## The claims -/

/-- A store `store v0 to v1`, stored value first. -/
def storeFunc : Func :=
  { numValues := 2
  , insts :=
      [ { op := Opcode.store, fixedArgs := [0, 1], varArgs := [], results := [] } ]
  , blocks := [ { params := [0, 1], insts := [0] } ]
  , bounds := []
  , valueTypeBytes := [8, 8]
  , pre_lfence := []
  , post_lfence := [] }

def storeCfg : Cfg := [[]]

/-- A concrete environment for the C5 witness: `v0 = 64` (lower), `v1 =
200` (upper), `v2 = 100` (pointer). -/
def slhEnv : Nat → EVal :=
  fun x =>
    if x = 0 then EVal.int 64
    else if x = 1 then EVal.int 200
    else if x = 2 then EVal.int 100
    else EVal.int 0

/-! ## Theorems -/

theorem alookup_cons {α β : Type} [DecidableEq α] (k : α) (v : β) (l : List (α × β)) (a : α) :
    alookup ((k, v) :: l) a = if a = k then some v else alookup l a := rfl

theorem alookup_append {α β : Type} [DecidableEq α] (l₁ l₂ : List (α × β)) (a : α) :
    alookup (l₁ ++ l₂) a = ((alookup l₁ a).orElse (fun _ => alookup l₂ a)) := by
  induction l₁ with
  | nil => rfl
  | cons p rest ih =>
    obtain ⟨k, v⟩ := p
    by_cases h : a = k <;> simp [alookup, h, ih]

theorem mem_enum_iff_get? {α : Type} {l : List α} {i : Nat} {a : α} :
    (i, a) ∈ l.enum ↔ l.get? i = some a := by
  rw [List.mem_enum_iff_getElem?]
  simp [List.get?_eq_getElem?]

/-- Any node reachable from `a` while avoiding `removed` stays inside a set
that contains `a` and is closed under the surviving edges. -/
theorem Reaches.mem_of_closed {g : FlowGraph} {removed : List Nat} {S : List Nat}
    {a b : Nat} (ha : a ∈ S)
    (hcl : ∀ p ∈ g.edges.enum, p.1 ∉ removed → p.2.1 ∈ S → p.2.2 ∈ S)
    (h : Reaches g removed a b) : b ∈ S := by
  induction h with
  | refl => exact ha
  | step i hi he _ ih =>
    exact hcl _ (mem_enum_iff_get?.mpr he) hi ih

theorem not_reaches_of_closed {g : FlowGraph} {removed : List Nat} (S : List Nat)
    {a b : Nat} (ha : a ∈ S) (hb : b ∉ S)
    (hcl : ∀ p ∈ g.edges.enum, p.1 ∉ removed → p.2.1 ∈ S → p.2.2 ∈ S) :
    ¬ Reaches g removed a b :=
  fun h => hb (h.mem_of_closed ha hcl)

/-- Every edge that crosses from `reachable` to its complement is listed in
the reconstructed cut. -/
theorem mem_min_cut_of_crossing {g : FlowGraph} {reachable : List Nat}
    {i s d : Nat} (he : g.edges.get? i = some (s, d))
    (hs : s ∈ reachable) (hd : d ∉ reachable) : i ∈ min_cut g reachable := by
  unfold min_cut
  refine List.mem_map.mpr ⟨(i, (s, d)), ?_, rfl⟩
  refine List.mem_filter.mpr ⟨?_, by simpa using hd⟩
  refine List.mem_bind.mpr ⟨s, hs, ?_⟩
  unfold FlowGraph.outedges
  exact List.mem_filter.mpr ⟨mem_enum_iff_get?.mpr he, by simp⟩

/-- Conversely, every cut edge is a crossing edge of the graph. -/
theorem min_cut_spec {g : FlowGraph} {reachable : List Nat} {i : Nat}
    (hi : i ∈ min_cut g reachable) :
    ∃ s d, g.edges.get? i = some (s, d) ∧ s ∈ reachable ∧ d ∉ reachable := by
  unfold min_cut at hi
  obtain ⟨⟨j, s, d⟩, hmem, rfl⟩ := List.mem_map.mp hi
  obtain ⟨hmem, hd⟩ := List.mem_filter.mp hmem
  obtain ⟨n, hn, hout⟩ := List.mem_bind.mp hmem
  unfold FlowGraph.outedges at hout
  obtain ⟨henum, hsn⟩ := List.mem_filter.mp hout
  refine ⟨s, d, mem_enum_iff_get?.mp henum, ?_, by simpa using hd⟩
  have hsn' : s = n := by simpa using hsn
  exact hsn' ▸ hn

/-- Removing the reconstructed cut separates the source from the sink,
provided the solver-returned set contains the source and misses the sink. -/
theorem min_cut_separates (g : FlowGraph) (reachable : List Nat)
    (hs : g.source ∈ reachable) (ht : g.sink ∉ reachable) :
    ¬ Reaches g (min_cut g reachable) g.source g.sink := by
  refine not_reaches_of_closed reachable hs ht ?_
  rintro ⟨i, s, d⟩ hp hni hsS
  by_contra hdS
  exact hni (mem_min_cut_of_crossing (mem_enum_iff_get?.mp hp) hsS hdS)

theorem sum_map_filter_eq {α : Type} (l : List α) (q : α → Bool) (m : α → Int) :
    ((l.filter q).map m).sum = (l.map (fun x => if q x then m x else 0)).sum := by
  induction l with
  | nil => rfl
  | cons a l ih => by_cases h : q a <;> simp [List.filter_cons, h, ih]

theorem sum_map_add_distrib {α : Type} (l : List α) (f h : α → Int) :
    (l.map (fun x => f x + h x)).sum = (l.map f).sum + (l.map h).sum := by
  induction l with
  | nil => rfl
  | cons a l ih =>
    simp only [List.map_cons, List.sum_cons, ih]
    ring

theorem sum_map_sub_distrib {α : Type} (l : List α) (f h : α → Int) :
    (l.map (fun x => f x - h x)).sum = (l.map f).sum - (l.map h).sum := by
  induction l with
  | nil => rfl
  | cons a l ih =>
    simp only [List.map_cons, List.sum_cons, ih]
    ring

theorem sum_sum_comm {α β : Type} (l : List α) (m : List β) (F : α → β → Int) :
    (l.map (fun a => (m.map (F a)).sum)).sum
      = (m.map (fun b => (l.map (fun a => F a b)).sum)).sum := by
  induction l with
  | nil =>
    symm
    apply List.sum_eq_zero
    intro x hx
    obtain ⟨b, _, rfl⟩ := List.mem_map.mp hx
    simp
  | cons a l ih =>
    simp only [List.map_cons, List.sum_cons, ih]
    rw [← sum_map_add_distrib]

theorem sum_ite_mem {x : Int} (u : Nat) (S : List Nat) (hnd : S.Nodup) :
    (S.map (fun v => if u = v then x else 0)).sum = if u ∈ S then x else 0 := by
  induction S with
  | nil => simp
  | cons a S ih =>
    rcases List.nodup_cons.mp hnd with ⟨ha, hS⟩
    by_cases h : u = a
    · subst h
      simp [ha, ih hS]
    · simp [h, ih hS]

theorem sum_ite_one_eq_countP {α : Type} (l : List α) (q : α → Bool) :
    (l.map (fun x => if q x then (1 : Int) else 0)).sum = (l.countP q : Int) := by
  induction l with
  | nil => rfl
  | cons a l ih =>
    by_cases h : q a <;>
      simp [List.countP_cons, h, ih] <;> push_cast <;> ring

theorem cast_outflow (g : FlowGraph) (fl : List Nat) (v : Nat) :
    (outflow g fl v : Int)
      = ((edgeFlows g fl).map
          (fun p => if p.1.1 = v then (p.2 : Int) else 0)).sum := by
  unfold outflow
  rw [Nat.cast_list_sum, List.map_map]
  have h := sum_map_filter_eq (edgeFlows g fl)
    (fun p => decide (p.1.1 = v)) (fun p => (p.2 : Int))
  simp only [Function.comp_def]
  rw [h]
  simp only [decide_eq_true_eq]

theorem cast_inflow (g : FlowGraph) (fl : List Nat) (v : Nat) :
    (inflow g fl v : Int)
      = ((edgeFlows g fl).map
          (fun p => if p.1.2 = v then (p.2 : Int) else 0)).sum := by
  unfold inflow
  rw [Nat.cast_list_sum, List.map_map]
  have h := sum_map_filter_eq (edgeFlows g fl)
    (fun p => decide (p.1.2 = v)) (fun p => (p.2 : Int))
  simp only [Function.comp_def]
  rw [h]
  simp only [decide_eq_true_eq]

theorem netout_eq_zero_of_far (g : FlowGraph) (fl : List Nat) (v : Nat)
    (hE : ∀ e ∈ g.edges, e.1 < g.numNodes ∧ e.2 < g.numNodes)
    (hv : g.numNodes ≤ v) : netout g fl v = 0 := by
  have hout : outflow g fl v = 0 := by
    unfold outflow
    have hnil : (edgeFlows g fl).filter (fun p => p.1.1 = v) = [] := by
      rw [List.filter_eq_nil]
      intro p hp
      have hmem : p.1 ∈ g.edges := (List.of_mem_zip hp).1
      have h1 := (hE p.1 hmem).1
      simp only [decide_eq_true_eq]
      omega
    rw [hnil]
    rfl
  have hin : inflow g fl v = 0 := by
    unfold inflow
    have hnil : (edgeFlows g fl).filter (fun p => p.1.2 = v) = [] := by
      rw [List.filter_eq_nil]
      intro p hp
      have hmem : p.1 ∈ g.edges := (List.of_mem_zip hp).1
      have h2 := (hE p.1 hmem).2
      simp only [decide_eq_true_eq]
      omega
    rw [hnil]
    rfl
  simp [netout, hout, hin]

/-- The value of a flow equals its aggregate net outflow over any node set
that contains the source, misses the sink and has no duplicates. -/
theorem flowValue_eq_sum_netout (g : FlowGraph) (fl : List Nat) (S : List Nat)
    (hE : ∀ e ∈ g.edges, e.1 < g.numNodes ∧ e.2 < g.numNodes)
    (hs : g.source ∈ S) (ht : g.sink ∉ S) (hnd : S.Nodup)
    (hfl : IsFlow g fl) :
    flowValue g fl = (S.map (netout g fl)).sum := by
  have hzero : ∀ v ∈ S.erase g.source, netout g fl v = 0 := by
    intro v hv
    have hvS : v ∈ S := List.mem_of_mem_erase hv
    have hvne : v ≠ g.source := by
      intro h
      subst h
      exact (List.Nodup.not_mem_erase hnd) hv
    by_cases hlt : v < g.numNodes
    · have hvnsink : v ≠ g.sink := fun h => ht (h ▸ hvS)
      have hc := hfl.2.2 v hlt hvne hvnsink
      simp [netout, hc]
    · exact netout_eq_zero_of_far g fl v hE (by omega)
  have hperm : S.Perm (g.source :: S.erase g.source) := List.perm_cons_erase hs
  calc flowValue g fl
      = ((g.source :: S.erase g.source).map (netout g fl)).sum := by
        simp only [List.map_cons, List.sum_cons]
        have hz : ((S.erase g.source).map (netout g fl)).sum = 0 := by
          apply List.sum_eq_zero
          intro x hx
          obtain ⟨v, hv, rfl⟩ := List.mem_map.mp hx
          exact hzero v hv
        rw [hz]
        simp [flowValue, netout]
    _ = (S.map (netout g fl)).sum := ((hperm.map (netout g fl)).sum_eq).symm

theorem length_filter_enumFrom {α : Type} (q : α → Bool) :
    ∀ (l : List α) (k : Nat),
      ((List.enumFrom k l).filter (fun p => q p.2)).length = (l.filter q).length
  | [], _ => rfl
  | a :: l, k => by
    simp only [List.enumFrom_cons, List.filter_cons]
    by_cases h : q a
    · simp [h, length_filter_enumFrom q l (k + 1)]
    · simp [h, length_filter_enumFrom q l (k + 1)]

theorem countP_mem_cons_split (edges : List (Nat × Nat)) (a : Nat) (S : List Nat)
    (X : Nat × Nat → Bool) (ha : a ∉ S) :
    edges.countP (fun e => decide (e.1 ∈ a :: S) && X e)
      = edges.countP (fun e => decide (e.1 = a) && X e)
        + edges.countP (fun e => decide (e.1 ∈ S) && X e) := by
  induction edges with
  | nil => rfl
  | cons e es ih =>
    simp only [List.countP_cons, ih]
    by_cases hX : X e
    · by_cases h1 : e.1 = a
      · have h2 : e.1 ∉ S := h1 ▸ ha
        simp only [List.mem_cons, h1, hX]
        simp [ha]
        omega
      · by_cases h2 : e.1 ∈ S <;> simp [List.mem_cons, h1, h2, hX] <;> omega
    · simp [hX]

theorem min_cut_length_aux (g : FlowGraph) (T : List Nat) :
    ∀ S : List Nat, S.Nodup →
      ((S.bind (fun n => g.outedges n)).filter
          (fun p => ¬ p.2.2 ∈ T)).length
        = g.edges.countP (fun e => decide (e.1 ∈ S) && decide (¬ e.2 ∈ T))
  | [], _ => by simp
  | a :: S, hnd => by
    rcases List.nodup_cons.mp hnd with ⟨ha, hnd'⟩
    simp only [List.cons_bind, List.filter_append, List.length_append]
    rw [min_cut_length_aux g T S hnd']
    rw [countP_mem_cons_split g.edges a S _ ha]
    congr 1
    unfold FlowGraph.outedges
    rw [List.filter_filter]
    have h := length_filter_enumFrom
      (fun e => decide (¬ e.2 ∈ T) && decide (e.1 = a)) g.edges 0
    calc (g.edges.enum.filter
            (fun p => decide (¬ p.2.2 ∈ T) && decide (p.2.1 = a))).length
        = (g.edges.filter (fun e => decide (¬ e.2 ∈ T) && decide (e.1 = a))).length := h
      _ = g.edges.countP (fun e => decide (e.1 = a) && decide (¬ e.2 ∈ T)) := by
          rw [List.countP_eq_length_filter]
          have hcomm : g.edges.filter (fun e => decide (¬ e.2 ∈ T) && decide (e.1 = a))
              = g.edges.filter (fun e => decide (e.1 = a) && decide (¬ e.2 ∈ T)) := by
            apply List.filter_congr
            intro e _
            exact Bool.and_comm _ _
          rw [hcomm]

theorem min_cut_length_eq (g : FlowGraph) (S : List Nat) (hnd : S.Nodup) :
    (min_cut g S).length
      = g.edges.countP (fun e => decide (e.1 ∈ S) && decide (¬ e.2 ∈ S)) := by
  unfold min_cut
  rw [List.length_map]
  exact min_cut_length_aux g S S hnd

/-- Weak max-flow/min-cut duality for the reconstructed cut: the value of
any feasible flow is at most the size of the cut reconstructed from any
duplicate-free source-side node set. -/
theorem flowValue_le_min_cut (g : FlowGraph) (fl : List Nat) (S : List Nat)
    (hE : ∀ e ∈ g.edges, e.1 < g.numNodes ∧ e.2 < g.numNodes)
    (hs : g.source ∈ S) (ht : g.sink ∉ S) (hnd : S.Nodup)
    (hfl : IsFlow g fl) :
    flowValue g fl ≤ ((min_cut g S).length : Int) := by
  have hfun : netout g fl = fun v =>
      ((edgeFlows g fl).map (fun p => if p.1.1 = v then (p.2 : Int) else 0)).sum
        - ((edgeFlows g fl).map (fun p => if p.1.2 = v then (p.2 : Int) else 0)).sum := by
    funext v
    simp only [netout]
    rw [cast_outflow, cast_inflow]
  have hZ : flowValue g fl
      = ((edgeFlows g fl).map
          (fun p => (if p.1.1 ∈ S then (p.2 : Int) else 0)
            - (if p.1.2 ∈ S then (p.2 : Int) else 0))).sum := by
    rw [flowValue_eq_sum_netout g fl S hE hs ht hnd hfl, hfun]
    rw [sum_map_sub_distrib]
    rw [sum_sum_comm S (edgeFlows g fl)
      (fun v p => if p.1.1 = v then (p.2 : Int) else 0)]
    rw [sum_sum_comm S (edgeFlows g fl)
      (fun v p => if p.1.2 = v then (p.2 : Int) else 0)]
    rw [← sum_map_sub_distrib]
    apply congrArg List.sum
    apply List.map_congr_left
    intro p _
    rw [sum_ite_mem p.1.1 S hnd, sum_ite_mem p.1.2 S hnd]
  rw [hZ]
  have hbound : ((edgeFlows g fl).map
      (fun p => (if p.1.1 ∈ S then (p.2 : Int) else 0)
        - (if p.1.2 ∈ S then (p.2 : Int) else 0))).sum
      ≤ ((edgeFlows g fl).map
          (fun p => if decide (p.1.1 ∈ S) && decide (¬ p.1.2 ∈ S)
            then (1 : Int) else 0)).sum := by
    apply List.sum_le_sum
    intro p hp
    have hple : p.2 ≤ 1 := hfl.2.1 p.2 (List.of_mem_zip hp).2
    have hcast : (p.2 : Int) ≤ 1 := by exact_mod_cast hple
    have hnn : (0 : Int) ≤ (p.2 : Int) := Int.natCast_nonneg p.2
    by_cases h1 : p.1.1 ∈ S <;> by_cases h2 : p.1.2 ∈ S <;>
      simp [h1, h2] <;> omega
  refine le_trans hbound ?_
  rw [sum_ite_one_eq_countP]
  have hlen : (edgeFlows g fl).countP
      (fun p => decide (p.1.1 ∈ S) && decide (¬ p.1.2 ∈ S))
      = g.edges.countP (fun e => decide (e.1 ∈ S) && decide (¬ e.2 ∈ S)) := by
    have hfst : (edgeFlows g fl).map Prod.fst = g.edges := by
      unfold edgeFlows
      apply List.map_fst_zip
      have hl := hfl.1
      omega
    calc (edgeFlows g fl).countP
          (fun p => decide (p.1.1 ∈ S) && decide (¬ p.1.2 ∈ S))
        = ((edgeFlows g fl).map Prod.fst).countP
            (fun e => decide (e.1 ∈ S) && decide (¬ e.2 ∈ S)) := by
          rw [List.countP_map]
          rfl
      _ = g.edges.countP (fun e => decide (e.1 ∈ S) && decide (¬ e.2 ∈ S)) := by
          rw [hfst]
  rw [hlen, ← min_cut_length_eq g S hnd]

theorem is_source_node_iff {g : FlowGraph} {n : Nat} :
    is_source_node g n = true ↔ (g.source, n) ∈ g.edges := by
  unfold is_source_node FlowGraph.inedgeSources
  simp only [List.any_eq_true, List.mem_map, List.mem_filter,
    decide_eq_true_eq]
  constructor
  · rintro ⟨m, ⟨e, ⟨he, hdst⟩, rfl⟩, hsrc⟩
    have : e = (g.source, n) := by
      obtain ⟨e1, e2⟩ := e
      simp only at hdst hsrc
      simp [hsrc, hdst]
    exact this ▸ he
  · intro h
    exact ⟨g.source, ⟨(g.source, n), ⟨h, rfl⟩, rfl⟩, rfl⟩

theorem mem_inedgeSources_iff {g : FlowGraph} {m n : Nat} :
    m ∈ g.inedgeSources n ↔ (m, n) ∈ g.edges := by
  unfold FlowGraph.inedgeSources
  simp only [List.mem_map, List.mem_filter, decide_eq_true_eq]
  constructor
  · rintro ⟨e, ⟨he, hdst⟩, rfl⟩
    obtain ⟨e1, e2⟩ := e
    simp only at hdst
    simpa [hdst] using he
  · intro h
    exact ⟨(m, n), ⟨h, rfl⟩, rfl⟩

theorem reaches_of_edge {g : FlowGraph} {removed : List Nat} {a b c : Nat}
    (hr : removed = []) (he : (b, c) ∈ g.edges) (h : Reaches g removed a b) :
    Reaches g removed a c := by
  obtain ⟨i, hi⟩ := List.get_of_mem he
  subst hr
  exact Reaches.step i.1 (List.not_mem_nil _) (by rw [List.get?_eq_get i.2]; rw [hi]) h

theorem seqJoin_all_nil {α : Type} :
    ∀ (l : List (Option (List α))) (r : List α),
      (∀ o ∈ l, ∀ r', o = some r' → r' = ([] : List α)) →
      seqJoin l = some r → r = []
  | [], _, _, h => (Option.some.inj h).symm
  | none :: rest, r, hall, h => by
    simp [seqJoin] at h
  | some l0 :: rest, r, hall, h => by
    have hl0 : l0 = [] := hall (some l0) (List.mem_cons_self _ _) l0 rfl
    subst hl0
    simp only [seqJoin] at h
    obtain ⟨r', hr', hcat⟩ := Option.map_eq_some'.mp h
    have hnil : r' = [] :=
      seqJoin_all_nil rest r' (fun o ho => hall o (List.mem_cons_of_mem _ ho)) hr'
    simp [← hcat, hnil]

/-- If the global source cannot reach `n` at all, any finished backward
walk from `n` comes back empty. -/
theorem ancestors_of_unreachable (g : FlowGraph) :
    ∀ (fuel : Nat) (n : Nat) (r : List Nat),
      ¬ Reaches g [] g.source n → ancestors_of g fuel n = some r → r = []
  | 0, _, _, _, h => by simp [ancestors_of] at h
  | fuel + 1, n, r, hnr, h => by
    by_cases hsrc : is_source_node g n
    · exact absurd (reaches_of_edge rfl (is_source_node_iff.mp hsrc)
        (Reaches.refl g.source)) hnr
    · simp only [ancestors_of, hsrc, Bool.false_eq_true, if_false] at h
      refine seqJoin_all_nil _ _ ?_ h
      intro o ho r' hr'
      obtain ⟨m, hm, rfl⟩ := List.mem_map.mp ho
      have hmr : ¬ Reaches g [] g.source m := by
        intro hreach
        exact hnr (reaches_of_edge rfl (mem_inedgeSources_iff.mp hm) hreach)
      exact ancestors_of_unreachable g fuel m r' hmr hr'

/-- A direct target of a source edge is its own one-element answer, with
any positive fuel. -/
theorem ancestors_of_source_target (g : FlowGraph) (n : Nat) (fuel : Nat)
    (h : is_source_node g n = true) :
    ancestors_of g (fuel + 1) n = some [n] := by
  simp [ancestors_of, h]

theorem Extends.refl (st : BuilderState) : Extends st st :=
  ⟨le_refl _, fun _ h => h, fun _ h => h, fun _ => rfl⟩

theorem Extends.trans {s1 s2 s3 : BuilderState}
    (h1 : Extends s1 s2) (h2 : Extends s2 s3) : Extends s1 s3 :=
  ⟨le_trans h1.1 h2.1, fun e he => h2.2.1 e (h1.2.1 e he),
   fun p hp => h2.2.2.1 p (h1.2.2.1 p hp),
   fun v => (h2.2.2.2 v).trans (h1.2.2.2 v)⟩

theorem extends_mark_as_source (st : BuilderState) (v : Nat) :
    Extends st (mark_as_source st v) :=
  ⟨le_refl _, fun e he => List.mem_append_left _ he, fun _ h => h, fun _ => rfl⟩

theorem extends_add_edge_from_value_to_node (st : BuilderState) (v n : Nat) :
    Extends st (add_edge_from_value_to_node st v n) :=
  ⟨le_refl _, fun e he => List.mem_append_left _ he, fun _ h => h, fun _ => rfl⟩

theorem extends_add_edge_from_node_to_value (st : BuilderState) (n v : Nat) :
    Extends st (add_edge_from_node_to_value st n v) :=
  ⟨le_refl _, fun e he => List.mem_append_left _ he, fun _ h => h, fun _ => rfl⟩

theorem extends_add_sink_node_for_inst (st : BuilderState) (i : Nat) :
    Extends st (add_sink_node_for_inst st i).1 := by
  refine ⟨Nat.le_succ _, fun e he => List.mem_append_left _ he,
    fun p hp => List.mem_cons_of_mem _ hp, fun v => ?_⟩
  simp [add_sink_node_for_inst, alookup_cons]

theorem extends_foldl {α : Type} (step : BuilderState → α → BuilderState)
    (hstep : ∀ s a, Extends s (step s a)) :
    ∀ (l : List α) (s : BuilderState), Extends s (l.foldl step s)
  | [], s => Extends.refl s
  | a :: l, s => (hstep s a).trans (extends_foldl step hstep l (step s a))

theorem can_load_not_call {op : Opcode} (h : op.can_load = true) :
    op.is_call = false := by
  cases op <;> simp_all [Opcode.can_load, Opcode.is_call]

theorem can_store_not_call {op : Opcode} (h : op.can_store = true) :
    op.is_call = false := by
  cases op <;> simp_all [Opcode.can_store, Opcode.is_call]

theorem is_branch_not_call {op : Opcode} (h : op.is_branch = true) :
    op.is_call = false := by
  cases op <;> simp_all [Opcode.is_branch, Opcode.is_call]

/-- Allocating a sink node and wiring a list of argument values into it
extends the state. -/
theorem extends_sinkEdges (s : BuilderState) (i : Nat) (args : List Nat) :
    Extends s (args.foldl
      (fun t a => add_edge_from_value_to_node t a (add_sink_node_for_inst s i).2)
      (add_sink_node_for_inst s i).1) :=
  (extends_add_sink_node_for_inst s i).trans
    (extends_foldl _ (fun t a => extends_add_edge_from_value_to_node t a _) args _)

theorem extends_markFold (l : List Nat) (s : BuilderState) :
    Extends s (l.foldl mark_as_source s) :=
  extends_foldl _ extends_mark_as_source l s

theorem extends_processInst (svs : Bool) (f : Func) (st : BuilderState) (i : Nat) :
    Extends st (processInst svs f st i) := by
  unfold processInst
  dsimp only
  by_cases hcl : (f.instOf i).op.can_load
  · have hic := can_load_not_call hcl
    simp only [hcl, if_true, hic, Bool.false_eq_true, if_false]
    by_cases hf : (f.instOf i).op = Opcode.fill ∨ (f.instOf i).op = Opcode.fillNop
    · simp only [hf, if_true]
      exact extends_markFold _ _
    · simp only [hf, if_false]
      exact (extends_markFold _ _).trans (extends_sinkEdges _ _ _)
  · simp only [hcl, Bool.false_eq_true, if_false]
    by_cases hcs : (f.instOf i).op.can_store
    · have hic := can_store_not_call hcs
      simp only [hcs, if_true, hic, Bool.false_eq_true, if_false]
      by_cases hsvs : svs
      · simp only [hsvs, if_true]
        exact extends_sinkEdges _ _ _
      · simp only [hsvs, Bool.false_eq_true, if_false]
        exact extends_sinkEdges _ _ _
    · simp only [hcs, Bool.false_eq_true, if_false]
      by_cases hbr : (f.instOf i).op.is_branch
      · have hic := is_branch_not_call hbr
        simp only [hbr, if_true, hic, Bool.false_eq_true, if_false]
        exact extends_sinkEdges _ _ _
      · simp only [hbr, Bool.false_eq_true, if_false]
        by_cases hc : (f.instOf i).op.is_call
        · simp only [hc, if_true]
          exact (extends_markFold _ _).trans (extends_sinkEdges _ _ _)
        · simp only [hc, Bool.false_eq_true, if_false]
          exact Extends.refl st

theorem instOK_of_WF {f : Func} (hwf : WF f) (i : Nat) : InstOK f (f.instOf i) := by
  unfold Func.instOf
  cases hget : f.insts.get? i with
  | none =>
    rw [List.getD_eq_get?, hget]
    exact ⟨fun a ha => by simp [InstData.args, default] at ha,
           fun r hr => by simp [default] at hr⟩
  | some d =>
    rw [List.getD_eq_get?, hget]
    have hd : d ∈ f.insts := List.get?_mem hget
    obtain ⟨hfx, hvr, hres⟩ := hwf.2.2.1 d hd
    refine ⟨fun a ha => ?_, hres⟩
    rcases List.mem_append.mp ha with h | h
    · exact hfx a h
    · exact hvr a h

theorem goodState_mark_as_source {f : Func} {st : BuilderState} {v : Nat}
    (hv : v < f.numValues) (hG : GoodState f st) :
    GoodState f (mark_as_source st v) := by
  obtain ⟨hn, hlk, hshape, hmem⟩ := hG
  refine ⟨hn, hlk, ?_, hmem⟩
  intro e he
  rcases List.mem_append.mp he with h | h
  · obtain ⟨h1, h2⟩ := hshape e h
    exact ⟨h1, h2⟩
  · have : e = (0, st.valueNode v) := List.mem_singleton.mp h
    subst this
    have hval : st.valueNode v = 2 + v := by
      unfold BuilderState.valueNode
      rw [hlk v hv]
      rfl
    constructor
    · intro _
      exact ⟨v, hv, hval, by simp only [mark_as_source]; exact hmem v hv⟩
    · intro h1
      rw [hval] at h1
      omega

theorem goodState_add_edge_from_value_to_node {f : Func} {st : BuilderState}
    {v n : Nat} (hv : v < f.numValues) (hn : 2 ≤ n) (hG : GoodState f st) :
    GoodState f (add_edge_from_value_to_node st v n) := by
  obtain ⟨hnx, hlk, hshape, hmem⟩ := hG
  refine ⟨hnx, hlk, ?_, hmem⟩
  intro e he
  rcases List.mem_append.mp he with h | h
  · exact hshape e h
  · have : e = (st.valueNode v, n) := List.mem_singleton.mp h
    subst this
    have hval : st.valueNode v = 2 + v := by
      unfold BuilderState.valueNode
      rw [hlk v hv]
      rfl
    constructor
    · intro h0
      rw [hval] at h0
      omega
    · intro h1
      omega

theorem goodState_add_edge_from_node_to_value {f : Func} {st : BuilderState}
    {n v : Nat} (hv : v < f.numValues) (hn : 2 ≤ n) (hG : GoodState f st) :
    GoodState f (add_edge_from_node_to_value st n v) := by
  obtain ⟨hnx, hlk, hshape, hmem⟩ := hG
  refine ⟨hnx, hlk, ?_, hmem⟩
  intro e he
  rcases List.mem_append.mp he with h | h
  · exact hshape e h
  · have : e = (n, st.valueNode v) := List.mem_singleton.mp h
    subst this
    have hval : st.valueNode v = 2 + v := by
      unfold BuilderState.valueNode
      rw [hlk v hv]
      rfl
    constructor
    · intro h0
      omega
    · intro h1
      rw [hval] at h1
      omega

theorem goodState_add_sink_node_for_inst {f : Func} {st : BuilderState} {i : Nat}
    (hG : GoodState f st) :
    GoodState f (add_sink_node_for_inst st i).1 := by
  obtain ⟨hnx, hlk, hshape, hmem⟩ := hG
  refine ⟨by simp [add_sink_node_for_inst]; omega, ?_, ?_, ?_⟩
  · intro v hv
    simp only [add_sink_node_for_inst, alookup_cons]
    rw [if_neg (by simp)]
    exact hlk v hv
  · intro e he
    simp only [add_sink_node_for_inst] at he
    rcases List.mem_append.mp he with h | h
    · obtain ⟨h1, h2⟩ := hshape e h
      refine ⟨fun h0 => ?_, fun hs => ?_⟩
      · obtain ⟨v, hv, hev, hm⟩ := h1 h0
        exact ⟨v, hv, hev, List.mem_cons_of_mem _ hm⟩
      · obtain ⟨j, hj⟩ := h2 hs
        exact ⟨j, List.mem_cons_of_mem _ hj⟩
    · have : e = (st.nextNode, 1) := List.mem_singleton.mp h
      subst this
      refine ⟨fun h0 => absurd h0 (by omega), fun _ => ⟨i, List.mem_cons_self _ _⟩⟩
  · intro v hv
    exact List.mem_cons_of_mem _ (hmem v hv)

theorem goodState_markFold {f : Func} :
    ∀ (l : List Nat) (st : BuilderState), (∀ r ∈ l, r < f.numValues) →
      GoodState f st → GoodState f (l.foldl mark_as_source st)
  | [], st, _, hG => hG
  | r :: l, st, hl, hG =>
    goodState_markFold l (mark_as_source st r)
      (fun x hx => hl x (List.mem_cons_of_mem _ hx))
      (goodState_mark_as_source (hl r (List.mem_cons_self _ _)) hG)

theorem goodState_edgeFold {f : Func} {n : Nat} (hn : 2 ≤ n) :
    ∀ (l : List Nat) (st : BuilderState), (∀ a ∈ l, a < f.numValues) →
      GoodState f st →
      GoodState f (l.foldl (fun t a => add_edge_from_value_to_node t a n) st)
  | [], st, _, hG => hG
  | a :: l, st, hl, hG =>
    goodState_edgeFold hn l (add_edge_from_value_to_node st a n)
      (fun x hx => hl x (List.mem_cons_of_mem _ hx))
      (goodState_add_edge_from_value_to_node (hl a (List.mem_cons_self _ _)) hn hG)

theorem goodState_sinkEdges {f : Func} {st : BuilderState} {i : Nat} {args : List Nat}
    (hargs : ∀ a ∈ args, a < f.numValues) (hG : GoodState f st) :
    GoodState f (args.foldl
      (fun t a => add_edge_from_value_to_node t a (add_sink_node_for_inst st i).2)
      (add_sink_node_for_inst st i).1) := by
  have h2 : 2 ≤ (add_sink_node_for_inst st i).2 := by
    have := hG.1
    simp only [add_sink_node_for_inst]
    omega
  exact goodState_edgeFold h2 args _ hargs (goodState_add_sink_node_for_inst hG)

theorem goodState_processInst {svs : Bool} {f : Func} {st : BuilderState} {i : Nat}
    (hok : InstOK f (f.instOf i)) (hG : GoodState f st) :
    GoodState f (processInst svs f st i) := by
  obtain ⟨hargs, hres⟩ := hok
  have hfix : ∀ a ∈ (f.instOf i).fixedArgs, a < f.numValues := by
    intro a ha
    exact hargs a (List.mem_append_left _ ha)
  have hdrop : ∀ a ∈ (f.instOf i).args.drop 1, a < f.numValues := by
    intro a ha
    exact hargs a (List.mem_of_mem_drop ha)
  unfold processInst
  dsimp only
  by_cases hcl : (f.instOf i).op.can_load
  · have hic := can_load_not_call hcl
    simp only [hcl, if_true, hic, Bool.false_eq_true, if_false]
    by_cases hf : (f.instOf i).op = Opcode.fill ∨ (f.instOf i).op = Opcode.fillNop
    · simp only [hf, if_true]
      exact goodState_markFold _ _ hres hG
    · simp only [hf, if_false]
      exact goodState_sinkEdges hargs (goodState_markFold _ _ hres hG)
  · simp only [hcl, Bool.false_eq_true, if_false]
    by_cases hcs : (f.instOf i).op.can_store
    · have hic := can_store_not_call hcs
      simp only [hcs, if_true, hic, Bool.false_eq_true, if_false]
      by_cases hsvs : svs
      · simp only [hsvs, if_true]
        exact goodState_sinkEdges hargs hG
      · simp only [hsvs, Bool.false_eq_true, if_false]
        exact goodState_sinkEdges hdrop hG
    · simp only [hcs, Bool.false_eq_true, if_false]
      by_cases hbr : (f.instOf i).op.is_branch
      · have hic := is_branch_not_call hbr
        simp only [hbr, if_true, hic, Bool.false_eq_true, if_false]
        exact goodState_sinkEdges hfix hG
      · simp only [hbr, Bool.false_eq_true, if_false]
        by_cases hc : (f.instOf i).op.is_call
        · simp only [hc, if_true]
          exact goodState_sinkEdges hargs (goodState_markFold _ _ hres hG)
        · simp only [hc, Bool.false_eq_true, if_false]
          exact hG

/-! ## Sink-node counting through the build -/

theorem foldl_nodeToBlade_eq {α : Type} (step : BuilderState → α → BuilderState)
    (h : ∀ s a, (step s a).nodeToBlade = s.nodeToBlade) :
    ∀ (l : List α) (s : BuilderState), (l.foldl step s).nodeToBlade = s.nodeToBlade
  | [], _ => rfl
  | a :: l, s => (foldl_nodeToBlade_eq step h l (step s a)).trans (h s a)

theorem sinkCountSt_eq_of_nodeToBlade {st st' : BuilderState}
    (h : st'.nodeToBlade = st.nodeToBlade) (j : Nat) :
    sinkCountSt st' j = sinkCountSt st j := by
  unfold sinkCountSt
  rw [h]

theorem sinkCountSt_add_sink (st : BuilderState) (i j : Nat) :
    sinkCountSt (add_sink_node_for_inst st i).1 j
      = sinkCountSt st j + (if j = i then 1 else 0) := by
  unfold sinkCountSt add_sink_node_for_inst
  rw [List.countP_cons]
  by_cases h : j = i
  · subst h
    simp
  · have hne : ¬ (BladeNode.sink i = BladeNode.sink j) := by
      simp only [BladeNode.sink.injEq]
      exact fun heq => h heq.symm
    simp [h, hne]

theorem sinkCountSt_markFold (l : List Nat) (st : BuilderState) (j : Nat) :
    sinkCountSt (l.foldl mark_as_source st) j = sinkCountSt st j :=
  sinkCountSt_eq_of_nodeToBlade
    (foldl_nodeToBlade_eq mark_as_source (fun _ _ => rfl) l st) j

theorem sinkCountSt_sinkEdges (st : BuilderState) (i : Nat) (args : List Nat) (j : Nat) :
    sinkCountSt (args.foldl
        (fun t a => add_edge_from_value_to_node t a (add_sink_node_for_inst st i).2)
        (add_sink_node_for_inst st i).1) j
      = sinkCountSt st j + (if j = i then 1 else 0) := by
  rw [sinkCountSt_eq_of_nodeToBlade
    (foldl_nodeToBlade_eq
      (fun t a => add_edge_from_value_to_node t a (add_sink_node_for_inst st i).2)
      (fun _ _ => rfl) args (add_sink_node_for_inst st i).1) j]
  exact sinkCountSt_add_sink st i j

/-- Processing one instruction adds exactly `expectedSinks` sink nodes for
it, and none for any other instruction. -/
theorem processInst_sinkCount (svs : Bool) (f : Func) (st : BuilderState) (i j : Nat) :
    sinkCountSt (processInst svs f st i) j
      = sinkCountSt st j + (if j = i then expectedSinks (f.instOf i).op else 0) := by
  unfold processInst
  dsimp only
  by_cases hcl : (f.instOf i).op.can_load
  · have hic := can_load_not_call hcl
    simp only [hcl, if_true, hic, Bool.false_eq_true, if_false]
    by_cases hf : (f.instOf i).op = Opcode.fill ∨ (f.instOf i).op = Opcode.fillNop
    · simp only [hf, if_true]
      rw [sinkCountSt_markFold]
      simp [expectedSinks, hcl, hf, hic]
    · simp only [hf, if_false]
      rw [sinkCountSt_sinkEdges, sinkCountSt_markFold]
      simp [expectedSinks, hcl, hf, hic]
  · simp only [hcl, Bool.false_eq_true, if_false]
    by_cases hcs : (f.instOf i).op.can_store
    · have hic := can_store_not_call hcs
      simp only [hcs, if_true, hic, Bool.false_eq_true, if_false]
      by_cases hsvs : svs
      · simp only [hsvs, if_true]
        rw [sinkCountSt_sinkEdges]
        simp [expectedSinks, hcl, hcs, hic]
      · simp only [hsvs, Bool.false_eq_true, if_false]
        rw [sinkCountSt_sinkEdges]
        simp [expectedSinks, hcl, hcs, hic]
    · simp only [hcs, Bool.false_eq_true, if_false]
      by_cases hbr : (f.instOf i).op.is_branch
      · have hic := is_branch_not_call hbr
        simp only [hbr, if_true, hic, Bool.false_eq_true, if_false]
        rw [sinkCountSt_sinkEdges]
        simp [expectedSinks, hcl, hcs, hbr, hic]
      · simp only [hbr, Bool.false_eq_true, if_false]
        by_cases hc : (f.instOf i).op.is_call
        · simp only [hc, if_true]
          rw [sinkCountSt_sinkEdges, sinkCountSt_markFold]
          simp [expectedSinks, hcl, hcs, hbr, hc]
        · simp only [hc, Bool.false_eq_true, if_false]
          simp [expectedSinks, hcl, hcs, hbr, hc]

theorem foldl_processInst_sinkCount (svs : Bool) (f : Func) :
    ∀ (l : List Nat), l.Nodup → ∀ (st : BuilderState) (j : Nat),
      sinkCountSt (l.foldl (processInst svs f) st) j
        = sinkCountSt st j + (if j ∈ l then expectedSinks (f.instOf j).op else 0)
  | [], _, st, j => by simp
  | i :: l, hnd, st, j => by
    rcases List.nodup_cons.mp hnd with ⟨hi, hnd'⟩
    rw [List.foldl_cons,
      foldl_processInst_sinkCount svs f l hnd' (processInst svs f st i) j,
      processInst_sinkCount svs f st i j]
    by_cases hji : j = i
    · subst hji
      simp [hi]
    · simp [hji, List.mem_cons]

theorem foldl_bind {α β σ : Type} (l : List α) (g : α → List β)
    (step : σ → β → σ) (s : σ) :
    (l.bind g).foldl step s = l.foldl (fun st a => (g a).foldl step st) s := by
  induction l generalizing s with
  | nil => rfl
  | cons a l ih => simp [List.cons_bind, List.foldl_append, ih]

theorem classifyPass_eq (svs : Bool) (f : Func) :
    classifyPass svs f = (layoutInsts f).foldl (processInst svs f) (initBuilder f) := by
  unfold classifyPass layoutInsts
  exact (foldl_bind f.blocks (fun b => b.insts) (processInst svs f) (initBuilder f)).symm

theorem nodeToBlade_dataflowStep (f : Func) (n : Nat) (st : BuilderState) (u : ValueUse) :
    (dataflowStep f n st u).nodeToBlade = st.nodeToBlade := by
  cases u with
  | inst iu =>
    exact foldl_nodeToBlade_eq (fun s r => add_edge_from_node_to_value s n r)
      (fun _ _ => rfl) (f.instOf iu).results st
  | value vu => rfl

theorem nodeToBlade_dataflowPass (f : Func) (cfg : Cfg) (st : BuilderState) :
    (dataflowPass f cfg st).nodeToBlade = st.nodeToBlade := by
  unfold dataflowPass
  exact foldl_nodeToBlade_eq _
    (fun s v => foldl_nodeToBlade_eq _ (fun s' u => nodeToBlade_dataflowStep f _ s' u) _ s)
    (List.range f.numValues) st

theorem sinkCountSt_init (f : Func) (j : Nat) : sinkCountSt (initBuilder f) j = 0 := by
  unfold sinkCountSt initBuilder
  rw [List.countP_eq_zero]
  intro p hp
  obtain ⟨v, _, rfl⟩ := List.mem_map.mp hp
  simp

/-- The final sink-node count of every instruction: its `expectedSinks` if
it is in the layout, zero otherwise. -/
theorem sinkCount_build (f : Func) (cfg : Cfg) (svs : Bool) (hwf : WF f) (j : Nat) :
    sinkCount (build_blade_graph_for_func f cfg svs) j
      = if j ∈ layoutInsts f then expectedSinks (f.instOf j).op else 0 := by
  show sinkCountSt (dataflowPass f cfg (classifyPass svs f)) j = _
  rw [sinkCountSt_eq_of_nodeToBlade (nodeToBlade_dataflowPass f cfg (classifyPass svs f)) j,
    classifyPass_eq,
    foldl_processInst_sinkCount svs f (layoutInsts f) hwf.1 (initBuilder f) j,
    sinkCountSt_init]
  simp

/-! ## The builder invariant through the whole build -/

theorem alookup_initPairs (n v : Nat) :
    alookup ((List.range n).map (fun v => (BladeNode.valueDef v, 2 + v)))
        (BladeNode.valueDef v)
      = if v < n then some (2 + v) else none := by
  induction n with
  | zero => simp [alookup]
  | succ n ih =>
    rw [List.range_succ, List.map_append, alookup_append, ih]
    by_cases h : v < n
    · rw [if_pos h, if_pos (by omega)]
      rfl
    · rw [if_neg h]
      by_cases hv : v = n
      · subst hv
        simp [alookup, Option.orElse]
      · have hlt : ¬ v < n + 1 := by omega
        have hne : ¬ (BladeNode.valueDef v = BladeNode.valueDef n) := by
          simp [BladeNode.valueDef.injEq, hv]
        simp [alookup, hne, Option.orElse, hlt]

theorem goodState_init (f : Func) : GoodState f (initBuilder f) := by
  refine ⟨le_refl _, ?_, ?_, ?_⟩
  · intro v hv
    show alookup ((List.range f.numValues).map
      (fun v => (BladeNode.valueDef v, 2 + v))) (BladeNode.valueDef v) = some (2 + v)
    rw [alookup_initPairs, if_pos hv]
  · intro e he
    simp [initBuilder] at he
  · intro v hv
    exact List.mem_map.mpr ⟨v, List.mem_range.mpr hv, rfl⟩

theorem goodState_foldl_processInst (svs : Bool) (f : Func) (hwf : WF f) :
    ∀ (l : List Nat) (st : BuilderState), GoodState f st →
      GoodState f (l.foldl (processInst svs f) st)
  | [], _, hG => hG
  | i :: l, st, hG =>
    goodState_foldl_processInst svs f hwf l (processInst svs f st i)
      (goodState_processInst (instOK_of_WF hwf i) hG)

theorem valueUse_value_lt {f : Func} {cfg : Cfg} {v vu : Nat} (hwf : WF f)
    (hu : ValueUse.value vu ∈ usesOfVal f cfg v) : vu < f.numValues := by
  unfold usesOfVal blockUses at hu
  obtain ⟨p, hp, hmem⟩ := List.mem_bind.mp hu
  have hb : p.2 ∈ f.blocks := by
    obtain ⟨bIdx, b⟩ := p
    exact List.get?_mem (mem_enum_iff_get?.mp hp)
  rcases List.mem_append.mp hmem with h | h
  · obtain ⟨i, _, hmm⟩ := List.mem_bind.mp h
    obtain ⟨a, _, heq⟩ := List.mem_map.mp hmm
    exact absurd heq (by simp)
  · obtain ⟨pred, _, hmm⟩ := List.mem_bind.mp h
    obtain ⟨q, hq, heq⟩ := List.mem_map.mp hmm
    have hq1 : q.1 = vu := by
      simpa using heq
    have hqz : q ∈ p.2.params.zip (f.instOf pred.2).varArgs :=
      List.mem_of_mem_filter hq
    have : q.1 ∈ p.2.params := by
      obtain ⟨q1, q2⟩ := q
      exact (List.of_mem_zip hqz).1
    exact hq1 ▸ hwf.2.2.2 p.2 hb q.1 this

theorem goodState_edgeFoldN {f : Func} {n : Nat} (hn : 2 ≤ n) :
    ∀ (l : List Nat) (st : BuilderState), (∀ r ∈ l, r < f.numValues) →
      GoodState f st →
      GoodState f (l.foldl (fun s r => add_edge_from_node_to_value s n r) st)
  | [], _, _, hG => hG
  | r :: l, st, hl, hG =>
    goodState_edgeFoldN hn l _ (fun x hx => hl x (List.mem_cons_of_mem _ hx))
      (goodState_add_edge_from_node_to_value (hl r (List.mem_cons_self _ _)) hn hG)

theorem goodState_dataflowStep {f : Func} {n : Nat} (hwf : WF f) (hn : 2 ≤ n)
    {st : BuilderState} {u : ValueUse}
    (hu : ∀ vu, u = ValueUse.value vu → vu < f.numValues)
    (hG : GoodState f st) : GoodState f (dataflowStep f n st u) := by
  cases u with
  | inst iu =>
    exact goodState_edgeFoldN hn (f.instOf iu).results st
      (instOK_of_WF hwf iu).2 hG
  | value vu =>
    exact goodState_add_edge_from_node_to_value (hu vu rfl) hn hG

theorem goodState_usesFold {f : Func} {cfg : Cfg} {n : Nat} {v : Nat}
    (hwf : WF f) (hn : 2 ≤ n) :
    ∀ (l : List ValueUse), (∀ u ∈ l, u ∈ usesOfVal f cfg v) →
      ∀ (st : BuilderState), GoodState f st →
        GoodState f (l.foldl (dataflowStep f n) st)
  | [], _, _, hG => hG
  | u :: l, hl, st, hG =>
    goodState_usesFold hwf hn l (fun x hx => hl x (List.mem_cons_of_mem _ hx))
      (dataflowStep f n st u)
      (goodState_dataflowStep hwf hn
        (fun vu hvu => valueUse_value_lt hwf (hvu ▸ hl u (List.mem_cons_self _ _)))
        hG)

theorem goodState_dataflowPass (f : Func) (cfg : Cfg) (hwf : WF f) :
    ∀ (l : List Nat) (st : BuilderState), (∀ v ∈ l, v < f.numValues) →
      GoodState f st →
      GoodState f (l.foldl (fun st v =>
        (usesOfVal f cfg v).foldl (dataflowStep f (st.valueNode v)) st) st)
  | [], _, _, hG => hG
  | v :: l, st, hl, hG => by
    have hv : v < f.numValues := hl v (List.mem_cons_self _ _)
    have hnode : st.valueNode v = 2 + v := by
      unfold BuilderState.valueNode
      rw [hG.2.1 v hv]
      rfl
    have hn : 2 ≤ st.valueNode v := by omega
    exact goodState_dataflowPass f cfg hwf l _
      (fun x hx => hl x (List.mem_cons_of_mem _ hx))
      (goodState_usesFold hwf hn (usesOfVal f cfg v) (fun u hu => hu) st hG)

/-- The invariant holds for the completed builder state. -/
theorem goodState_build (f : Func) (cfg : Cfg) (svs : Bool) (hwf : WF f) :
    GoodState f (dataflowPass f cfg (classifyPass svs f)) := by
  unfold dataflowPass
  apply goodState_dataflowPass f cfg hwf
  · intro v hv
    exact List.mem_range.mp hv
  · rw [classifyPass_eq]
    exact goodState_foldl_processInst svs f hwf (layoutInsts f) _ (goodState_init f)

theorem extends_dataflowStep (f : Func) (n : Nat) (st : BuilderState) (u : ValueUse) :
    Extends st (dataflowStep f n st u) := by
  cases u with
  | inst iu =>
    exact extends_foldl (fun s r => add_edge_from_node_to_value s n r)
      (fun s r => extends_add_edge_from_node_to_value s n r) (f.instOf iu).results st
  | value vu => exact extends_add_edge_from_node_to_value st n vu

theorem extends_dataflowPass (f : Func) (cfg : Cfg) (st : BuilderState) :
    Extends st (dataflowPass f cfg st) := by
  unfold dataflowPass
  exact extends_foldl _
    (fun s v => extends_foldl (dataflowStep f (s.valueNode v))
      (fun s' u => extends_dataflowStep f _ s' u) _ s)
    (List.range f.numValues) st

theorem extends_foldl_processInst (svs : Bool) (f : Func) (l : List Nat)
    (st : BuilderState) : Extends st (l.foldl (processInst svs f) st) :=
  extends_foldl (processInst svs f) (extends_processInst svs f) l st

/-! ## Presence of the classification edges -/

theorem markFold_mem {f : Func} :
    ∀ (l : List Nat) (st : BuilderState), GoodState f st →
      (∀ x ∈ l, x < f.numValues) →
      ∀ r ∈ l, (0, 2 + r) ∈ (l.foldl mark_as_source st).edges
  | [], _, _, _, r, hr => absurd hr (List.not_mem_nil r)
  | x :: l, st, hG, hl, r, hr => by
    rcases List.mem_cons.mp hr with h | h
    · subst h
      have hval : st.valueNode r = 2 + r := by
        unfold BuilderState.valueNode
        rw [hG.2.1 r (hl r (List.mem_cons_self _ _))]
        rfl
      have hmem : (0, 2 + r) ∈ (mark_as_source st r).edges := by
        simp only [mark_as_source, hval]
        exact List.mem_append_right _ (List.mem_singleton.mpr rfl)
      exact (extends_foldl mark_as_source extends_mark_as_source l
        (mark_as_source st r)).2.1 _ hmem
    · exact markFold_mem l (mark_as_source st x)
        (goodState_mark_as_source (hl x (List.mem_cons_self _ _)) hG)
        (fun y hy => hl y (List.mem_cons_of_mem _ hy)) r h

theorem edgeFold_mem {f : Func} {n : Nat} (hn : 2 ≤ n) :
    ∀ (l : List Nat) (st : BuilderState), GoodState f st →
      (∀ x ∈ l, x < f.numValues) →
      ∀ a ∈ l, (2 + a, n) ∈ (l.foldl
        (fun t a => add_edge_from_value_to_node t a n) st).edges
  | [], _, _, _, a, ha => absurd ha (List.not_mem_nil a)
  | x :: l, st, hG, hl, a, ha => by
    rcases List.mem_cons.mp ha with h | h
    · subst h
      have hval : st.valueNode a = 2 + a := by
        unfold BuilderState.valueNode
        rw [hG.2.1 a (hl a (List.mem_cons_self _ _))]
        rfl
      have hmem : (2 + a, n) ∈ (add_edge_from_value_to_node st a n).edges := by
        simp only [add_edge_from_value_to_node, hval]
        exact List.mem_append_right _ (List.mem_singleton.mpr rfl)
      exact (extends_foldl (fun t a => add_edge_from_value_to_node t a n)
        (fun t a => extends_add_edge_from_value_to_node t a n) l
        (add_edge_from_value_to_node st a n)).2.1 _ hmem
    · exact edgeFold_mem hn l (add_edge_from_value_to_node st x n)
        (goodState_add_edge_from_value_to_node (hl x (List.mem_cons_self _ _)) hn hG)
        (fun y hy => hl y (List.mem_cons_of_mem _ hy)) a h

/-- Processing a load or a call records a source edge for each result. -/
theorem processInst_source_edge {svs : Bool} {f : Func} {st : BuilderState} {i : Nat}
    (hwf : WF f) (hG : GoodState f st)
    (hop : (f.instOf i).op.can_load = true ∨ (f.instOf i).op.is_call = true) :
    ∀ r ∈ (f.instOf i).results, (0, 2 + r) ∈ (processInst svs f st i).edges := by
  intro r hr
  have hok := instOK_of_WF hwf i
  unfold processInst
  dsimp only
  by_cases hcl : (f.instOf i).op.can_load
  · have hic := can_load_not_call hcl
    simp only [hcl, if_true, hic, Bool.false_eq_true, if_false]
    have hmark : (0, 2 + r) ∈ ((f.instOf i).results.foldl mark_as_source st).edges :=
      markFold_mem (f.instOf i).results st hG hok.2 r hr
    by_cases hf : (f.instOf i).op = Opcode.fill ∨ (f.instOf i).op = Opcode.fillNop
    · simp only [hf, if_true]
      exact hmark
    · simp only [hf, if_false]
      exact (extends_sinkEdges _ _ _).2.1 _ hmark
  · have hc : (f.instOf i).op.is_call = true := by
      rcases hop with h | h
      · exact absurd h hcl
      · exact h
    simp only [hcl, Bool.false_eq_true, if_false]
    by_cases hcs : (f.instOf i).op.can_store
    · exact absurd hc (by rw [can_store_not_call hcs]; simp)
    · simp only [hcs, Bool.false_eq_true, if_false]
      by_cases hbr : (f.instOf i).op.is_branch
      · exact absurd hc (by rw [is_branch_not_call hbr]; simp)
      · simp only [hbr, Bool.false_eq_true, if_false, hc, if_true]
        have hmark : (0, 2 + r) ∈ ((f.instOf i).results.foldl mark_as_source st).edges :=
          markFold_mem (f.instOf i).results st hG hok.2 r hr
        exact (extends_sinkEdges _ _ _).2.1 _ hmark

/-- Processing a store with `store_values_are_sinks = true` wires every
argument, the stored value included, into the store's fresh sink node. -/
theorem processInst_store_edges {f : Func} {st : BuilderState} {i : Nat}
    (hwf : WF f) (hG : GoodState f st)
    (hcs : (f.instOf i).op.can_store = true) :
    ∃ n, (n, BladeNode.sink i) ∈ (processInst true f st i).nodeToBlade ∧
      ∀ a ∈ (f.instOf i).args, (2 + a, n) ∈ (processInst true f st i).edges := by
  have hok := instOK_of_WF hwf i
  have hcl : (f.instOf i).op.can_load = false := by
    cases hop : (f.instOf i).op <;> simp_all [Opcode.can_load, Opcode.can_store]
  have hic := can_store_not_call hcs
  unfold processInst
  dsimp only
  simp only [hcl, Bool.false_eq_true, if_false, hcs, if_true, hic, if_true]
  refine ⟨(add_sink_node_for_inst st i).2, ?_, ?_⟩
  · have hmem : ((add_sink_node_for_inst st i).2, BladeNode.sink i)
        ∈ (add_sink_node_for_inst st i).1.nodeToBlade := by
      simp [add_sink_node_for_inst]
    exact (extends_foldl (fun t a => add_edge_from_value_to_node t a
        (add_sink_node_for_inst st i).2)
      (fun t a => extends_add_edge_from_value_to_node t a _) _ _).2.2.1 _ hmem
  · intro a ha
    have hn : 2 ≤ (add_sink_node_for_inst st i).2 := by
      have := hG.1
      simp only [add_sink_node_for_inst]
      omega
    exact edgeFold_mem hn (f.instOf i).args (add_sink_node_for_inst st i).1
      (goodState_add_sink_node_for_inst hG) hok.1 a ha

/-- The backward scan fences after the nearest preceding boundary
instruction, or before the block's first instruction when none exists. -/
theorem scanBack_spec (f : Func) (l : List Nat) :
    ∀ k, scanBack f l k =
      match lastBoundaryBefore f l k with
      | some j => setPost f (l.getD j 0)
      | Option.none => setPre f (l.getD 0 0)
  | 0 => by
    simp [scanBack, lastBoundaryBefore]
  | k + 1 => by
    have hrange : (List.range (k + 1)).reverse = k :: (List.range k).reverse := by
      rw [List.range_succ, List.reverse_append]
      rfl
    unfold lastBoundaryBefore
    rw [hrange, List.find?_cons]
    show (if isBoundary (f.instOf (l.getD k 0)).op then setPost f (l.getD k 0)
          else scanBack f l k) = _
    by_cases h : isBoundary (f.instOf (l.getD k 0)).op
    · rw [if_pos h]
      simp only [h]
    · rw [if_neg h]
      simp only [h]
      rw [scanBack_spec f l k]
      rfl

theorem neg_one_emod_toNat (w : Nat) :
    ((-1 : Int) % ((2 : Int) ^ w)).toNat = 2 ^ w - 1 := by
  have h0 : (0 : Int) < 2 ^ w := by positivity
  have heq : (-1 : Int) = ((2 : Int) ^ w - 1) + (-1) * 2 ^ w := by ring
  rw [heq, Int.add_mul_emod_self, Int.emod_eq_of_lt (by omega) (by omega)]
  have hcast : ((2 : Int) ^ w) = ((2 ^ w : Nat) : Int) := by push_cast; ring
  rw [hcast]
  omega

theorem cast_emod_toNat (S w : Nat) (h : S < 2 ^ w) :
    (((S : Nat) : Int) % ((2 : Int) ^ w)).toNat = S := by
  have hcast : ((2 : Int) ^ w) = ((2 ^ w : Nat) : Int) := by push_cast; ring
  rw [hcast, Int.emod_eq_of_lt (by omega) (by exact_mod_cast h)]
  omega

/-! ## Deduplication of SLH requests -/

theorem do_slh_on_done_mono {st : SLHContext × Func} {bn x : BladeNode}
    (h : bn ∈ st.1.bladenodes_done) :
    bn ∈ (SLHContext.do_slh_on st x).1.bladenodes_done := by
  unfold SLHContext.do_slh_on
  by_cases hx : x ∈ st.1.bladenodes_done
  · simp [hx, h]
  · simp [hx]
    exact Or.inr h

theorem foldl_do_slh_on_done_mono {bn : BladeNode} :
    ∀ (l : List BladeNode) (st : SLHContext × Func),
      bn ∈ st.1.bladenodes_done →
      bn ∈ (l.foldl SLHContext.do_slh_on st).1.bladenodes_done
  | [], _, h => h
  | x :: l, st, h =>
    foldl_do_slh_on_done_mono l (SLHContext.do_slh_on st x) (do_slh_on_done_mono h)

theorem do_slh_on_of_done {st : SLHContext × Func} {bn : BladeNode}
    (h : bn ∈ st.1.bladenodes_done) : SLHContext.do_slh_on st bn = st := by
  unfold SLHContext.do_slh_on
  simp [h]

theorem do_slh_on_done_self (st : SLHContext × Func) (bn : BladeNode) :
    bn ∈ (SLHContext.do_slh_on st bn).1.bladenodes_done := by
  unfold SLHContext.do_slh_on
  by_cases h : bn ∈ st.1.bladenodes_done
  · simp [h]
  · simp [h]

theorem sub_mod_helper (U S w : Nat) (hSU : S ≤ U) (hU : U < 2 ^ w) :
    (U + 2 ^ w - S % 2 ^ w) % 2 ^ w = U - S := by
  have hS : S < 2 ^ w := lt_of_le_of_lt hSU hU
  rw [Nat.mod_eq_of_lt hS]
  have heq : U + 2 ^ w - S = (U - S) + 2 ^ w := by omega
  rw [heq, Nat.add_mod_right]
  exact Nat.mod_eq_of_lt (by omega)

/-- Running the emitted mask sequence computes exactly the two-step
compare-and-select mask and applies it to the pointer: all-ones when the
pointer is within `[lower, upper - operand_size]`, zero otherwise. -/
theorem evalSeq_slhMaskSeq (w : Nat) (f : Func) (p : Nat) (bnds : BoundsInfo)
    (loadedVal base : Nat) (env : Nat → EVal) (P L U : Nat)
    (hp : p < base) (hl : bnds.lower < base) (hu : bnds.upper < base)
    (hP : env p = EVal.int P) (hL : env bnds.lower = EVal.int L)
    (hU : env bnds.upper = EVal.int U)
    (hUw : U < 2 ^ w) (hS : typeBytes f loadedVal ≤ U) :
    evalSeq w env (slhMaskSeq f p bnds loadedVal base) (base + 8)
      = EVal.int (Nat.land P
          (if P ≤ U - typeBytes f loadedVal
           then (if L ≤ P then 2 ^ w - 1 else 0) else 0)) := by
  have hp0 : ¬ p = base := by omega
  have hpk : ∀ k : Nat, ¬ p = base + k := fun k => by omega
  have hl0 : ¬ bnds.lower = base := by omega
  have hlk : ∀ k : Nat, ¬ bnds.lower = base + k := fun k => by omega
  have hu0 : ¬ bnds.upper = base := by omega
  have huk : ∀ k : Nat, ¬ bnds.upper = base + k := fun k => by omega
  have hSw : typeBytes f loadedVal < 2 ^ w := lt_of_le_of_lt hS hUw
  simp only [slhMaskSeq, evalSeq, List.foldl_cons, List.foldl_nil]
  simp [stepEnv, evalInstData, asNat, testCC, hp0, hpk, hl0, hlk, hu0, huk,
    hP, hL, hU, add_right_inj, neg_one_emod_toNat, cast_emod_toNat _ _ hSw,
    sub_mod_helper U (typeBytes f loadedVal) w hS hUw, apply_ite asNat,
    Int.zero_emod]
  by_cases h1 : P ≤ U - typeBytes f loadedVal <;>
    by_cases h2 : L ≤ P <;> simp [h1, h2]

/-! ## Remaining support lemmas -/

theorem can_store_not_load {op : Opcode} (h : op.can_store = true) :
    op.can_load = false := by
  cases op <;> simp_all [Opcode.can_store, Opcode.can_load]

theorem is_branch_not_load {op : Opcode} (h : op.is_branch = true) :
    op.can_load = false := by
  cases op <;> simp_all [Opcode.is_branch, Opcode.can_load]

theorem is_branch_not_store {op : Opcode} (h : op.is_branch = true) :
    op.can_store = false := by
  cases op <;> simp_all [Opcode.is_branch, Opcode.can_store]

theorem is_call_not_load {op : Opcode} (h : op.is_call = true) :
    op.can_load = false := by
  cases op <;> simp_all [Opcode.is_call, Opcode.can_load]

theorem is_call_not_store {op : Opcode} (h : op.is_call = true) :
    op.can_store = false := by
  cases op <;> simp_all [Opcode.is_call, Opcode.can_store]

theorem is_call_not_branch {op : Opcode} (h : op.is_call = true) :
    op.is_branch = false := by
  cases op <;> simp_all [Opcode.is_call, Opcode.is_branch]

theorem expectedSinks_le_one (op : Opcode) : expectedSinks op ≤ 1 := by
  cases op <;> decide

/-- Distinct keys make association lookup agree with membership. -/
theorem alookup_of_mem_nodupKeys {α β : Type} [DecidableEq α] :
    ∀ {l : List (α × β)} {k : α} {v : β},
      (k, v) ∈ l → (l.map Prod.fst).Nodup → alookup l k = some v
  | [], _, _, h, _ => absurd h (List.not_mem_nil _)
  | (k', v') :: l, k, v, h, hnd => by
    rcases List.mem_cons.mp h with heq | htail
    · obtain ⟨rfl, rfl⟩ := Prod.mk.injEq .. ▸ heq
      · simp [alookup_cons]
    · have hk : k ≠ k' := by
        intro hkk
        subst hkk
        have : k ∈ l.map Prod.fst := List.mem_map.mpr ⟨(k, v), htail, rfl⟩
        exact (List.nodup_cons.mp (by simpa using hnd)).1 this
      rw [alookup_cons, if_neg hk]
      exact alookup_of_mem_nodupKeys htail (List.nodup_cons.mp (by simpa using hnd)).2

theorem keysOK_init (f : Func) : KeysOK (initBuilder f) := by
  constructor
  · intro p hp
    obtain ⟨v, hvr, rfl⟩ := List.mem_map.mp hp
    have := List.mem_range.mp hvr
    simp only [initBuilder]
    omega
  · show (((List.range f.numValues).map
      (fun v => (2 + v, BladeNode.valueDef v))).map Prod.fst).Nodup
    rw [List.map_map]
    refine List.Nodup.map ?_ (List.nodup_range f.numValues)
    intro a b hab
    simp only [Function.comp_apply] at hab
    omega

theorem keysOK_add_sink {st : BuilderState} {i : Nat} (h : KeysOK st) :
    KeysOK (add_sink_node_for_inst st i).1 := by
  obtain ⟨hb, hnd⟩ := h
  constructor
  · intro p hp
    simp only [add_sink_node_for_inst] at hp ⊢
    rcases List.mem_cons.mp hp with rfl | hp
    · omega
    · have := hb p hp
      omega
  · simp only [add_sink_node_for_inst, List.map_cons]
    refine List.nodup_cons.mpr ⟨?_, hnd⟩
    intro hmem
    obtain ⟨p, hp, hfst⟩ := List.mem_map.mp hmem
    have := hb p hp
    omega

theorem nextNode_markFold (l : List Nat) (st : BuilderState) :
    (l.foldl mark_as_source st).nextNode = st.nextNode := by
  induction l generalizing st with
  | nil => rfl
  | cons x l ih => exact ih (mark_as_source st x)

theorem nextNode_edgeFold (n : Nat) (l : List Nat) (st : BuilderState) :
    (l.foldl (fun t a => add_edge_from_value_to_node t a n) st).nextNode
      = st.nextNode := by
  induction l generalizing st with
  | nil => rfl
  | cons x l ih => exact ih (add_edge_from_value_to_node st x n)

theorem keysOK_of_fields {st st' : BuilderState}
    (hn : st'.nodeToBlade = st.nodeToBlade) (hx : st'.nextNode = st.nextNode)
    (h : KeysOK st) : KeysOK st' := by
  obtain ⟨hb, hnd⟩ := h
  exact ⟨fun p hp => hx ▸ hb p (hn ▸ hp), hn ▸ hnd⟩

theorem keysOK_markFold {l : List Nat} {st : BuilderState} (h : KeysOK st) :
    KeysOK (l.foldl mark_as_source st) :=
  keysOK_of_fields (foldl_nodeToBlade_eq mark_as_source (fun _ _ => rfl) l st)
    (nextNode_markFold l st) h

theorem keysOK_sinkEdges {st : BuilderState} {i : Nat} {args : List Nat}
    (h : KeysOK st) :
    KeysOK (args.foldl
      (fun t a => add_edge_from_value_to_node t a (add_sink_node_for_inst st i).2)
      (add_sink_node_for_inst st i).1) :=
  keysOK_of_fields
    (foldl_nodeToBlade_eq
      (fun t a => add_edge_from_value_to_node t a (add_sink_node_for_inst st i).2)
      (fun _ _ => rfl) args (add_sink_node_for_inst st i).1)
    (nextNode_edgeFold (add_sink_node_for_inst st i).2 args
      (add_sink_node_for_inst st i).1)
    (keysOK_add_sink h)

theorem keysOK_processInst {svs : Bool} {f : Func} {st : BuilderState} {i : Nat}
    (h : KeysOK st) : KeysOK (processInst svs f st i) := by
  unfold processInst
  dsimp only
  by_cases hcl : (f.instOf i).op.can_load
  · have hic := can_load_not_call hcl
    simp only [hcl, if_true, hic, Bool.false_eq_true, if_false]
    by_cases hf : (f.instOf i).op = Opcode.fill ∨ (f.instOf i).op = Opcode.fillNop
    · simp only [hf, if_true]
      exact keysOK_markFold h
    · simp only [hf, if_false]
      exact keysOK_sinkEdges (keysOK_markFold h)
  · simp only [hcl, Bool.false_eq_true, if_false]
    by_cases hcs : (f.instOf i).op.can_store
    · have hic := can_store_not_call hcs
      simp only [hcs, if_true, hic, Bool.false_eq_true, if_false]
      by_cases hsvs : svs
      · simp only [hsvs, if_true]
        exact keysOK_sinkEdges h
      · simp only [hsvs, Bool.false_eq_true, if_false]
        exact keysOK_sinkEdges h
    · simp only [hcs, Bool.false_eq_true, if_false]
      by_cases hbr : (f.instOf i).op.is_branch
      · have hic := is_branch_not_call hbr
        simp only [hbr, if_true, hic, Bool.false_eq_true, if_false]
        exact keysOK_sinkEdges h
      · simp only [hbr, Bool.false_eq_true, if_false]
        by_cases hc : (f.instOf i).op.is_call
        · simp only [hc, if_true]
          exact keysOK_sinkEdges (keysOK_markFold h)
        · simp only [hc, Bool.false_eq_true, if_false]
          exact h

theorem nextNode_edgeFoldN (n : Nat) :
    ∀ (l : List Nat) (st : BuilderState),
      (l.foldl (fun s r => add_edge_from_node_to_value s n r) st).nextNode
        = st.nextNode
  | [], _ => rfl
  | r :: l, st => nextNode_edgeFoldN n l (add_edge_from_node_to_value st n r)

theorem nextNode_dataflowStep (f : Func) (n : Nat) (st : BuilderState) (u : ValueUse) :
    (dataflowStep f n st u).nextNode = st.nextNode := by
  cases u with
  | inst iu => exact nextNode_edgeFoldN n (f.instOf iu).results st
  | value vu => rfl

theorem nextNode_usesFold (f : Func) (n : Nat) :
    ∀ (us : List ValueUse) (st : BuilderState),
      (us.foldl (dataflowStep f n) st).nextNode = st.nextNode
  | [], _ => rfl
  | u :: us, st =>
    (nextNode_usesFold f n us (dataflowStep f n st u)).trans
      (nextNode_dataflowStep f n st u)

theorem nextNode_dataflowPass (f : Func) (cfg : Cfg) (st : BuilderState) :
    (dataflowPass f cfg st).nextNode = st.nextNode := by
  unfold dataflowPass
  generalize List.range f.numValues = l
  induction l generalizing st with
  | nil => rfl
  | cons v l ih =>
    rw [List.foldl_cons, ih]
    exact nextNode_usesFold f (st.valueNode v) (usesOfVal f cfg v) st

theorem keysOK_foldl_processInst (svs : Bool) (f : Func) :
    ∀ (l : List Nat) (st : BuilderState), KeysOK st →
      KeysOK (l.foldl (processInst svs f) st)
  | [], _, h => h
  | i :: l, st, h =>
    keysOK_foldl_processInst svs f l (processInst svs f st i) (keysOK_processInst h)

theorem keysOK_build (f : Func) (cfg : Cfg) (svs : Bool) :
    KeysOK (dataflowPass f cfg (classifyPass svs f)) := by
  have hcl : KeysOK (classifyPass svs f) := by
    rw [classifyPass_eq]
    exact keysOK_foldl_processInst svs f (layoutInsts f) (initBuilder f) (keysOK_init f)
  exact keysOK_of_fields (nodeToBlade_dataflowPass f cfg _)
    (nextNode_dataflowPass f cfg _) hcl

/-- A source edge recorded during classification survives into the final
graph. -/
theorem build_source_edge (f : Func) (cfg : Cfg) (svs : Bool) (hwf : WF f)
    (i : Nat) (hi : i ∈ layoutInsts f)
    (hop : (f.instOf i).op.can_load = true ∨ (f.instOf i).op.is_call = true) :
    ∀ r ∈ (f.instOf i).results,
      (0, 2 + r) ∈ (build_blade_graph_for_func f cfg svs).graph.edges := by
  intro r hr
  obtain ⟨l1, l2, hsplit⟩ := List.append_of_mem hi
  show (0, 2 + r) ∈ (dataflowPass f cfg (classifyPass svs f)).edges
  have hG1 : GoodState f (l1.foldl (processInst svs f) (initBuilder f)) :=
    goodState_foldl_processInst svs f hwf l1 _ (goodState_init f)
  have hmem : (0, 2 + r) ∈ (processInst svs f
      (l1.foldl (processInst svs f) (initBuilder f)) i).edges :=
    processInst_source_edge hwf hG1 hop r hr
  have hcl : classifyPass svs f
      = l2.foldl (processInst svs f)
          (processInst svs f (l1.foldl (processInst svs f) (initBuilder f)) i) := by
    rw [classifyPass_eq, hsplit, List.foldl_append, List.foldl_cons]
  have hmem2 : (0, 2 + r) ∈ (classifyPass svs f).edges := by
    rw [hcl]
    exact (extends_foldl_processInst svs f l2 _).2.1 _ hmem
  exact (extends_dataflowPass f cfg _).2.1 _ hmem2

/-- The sink node of a store, with every argument wired to it, survives
into the final graph. -/
theorem build_store_edges (f : Func) (cfg : Cfg) (hwf : WF f) (i : Nat)
    (hi : i ∈ layoutInsts f) (hcs : (f.instOf i).op.can_store = true) :
    ∃ n, (n, BladeNode.sink i) ∈ (build_blade_graph_for_func f cfg true).nodeToBlade ∧
      ∀ a ∈ (f.instOf i).args,
        (2 + a, n) ∈ (build_blade_graph_for_func f cfg true).graph.edges := by
  obtain ⟨l1, l2, hsplit⟩ := List.append_of_mem hi
  have hG1 : GoodState f (l1.foldl (processInst true f) (initBuilder f)) :=
    goodState_foldl_processInst true f hwf l1 _ (goodState_init f)
  obtain ⟨n, hn, hargs⟩ := processInst_store_edges hwf hG1 hcs
  have hcl : classifyPass true f
      = l2.foldl (processInst true f)
          (processInst true f (l1.foldl (processInst true f) (initBuilder f)) i) := by
    rw [classifyPass_eq, hsplit, List.foldl_append, List.foldl_cons]
  refine ⟨n, ?_, ?_⟩
  · show (n, BladeNode.sink i) ∈ (dataflowPass f cfg (classifyPass true f)).nodeToBlade
    have hmem2 : (n, BladeNode.sink i) ∈ (classifyPass true f).nodeToBlade := by
      rw [hcl]
      exact (extends_foldl_processInst true f l2 _).2.2.1 _ hn
    exact (extends_dataflowPass f cfg _).2.2.1 _ hmem2
  · intro a ha
    show (2 + a, n) ∈ (dataflowPass f cfg (classifyPass true f)).edges
    have hmem2 : (2 + a, n) ∈ (classifyPass true f).edges := by
      rw [hcl]
      exact (extends_foldl_processInst true f l2 _).2.1 _ (hargs a ha)
    exact (extends_dataflowPass f cfg _).2.1 _ hmem2

/-- Every value node is present in the final node map. -/
theorem build_valueNode_mem (f : Func) (cfg : Cfg) (svs : Bool) (hwf : WF f)
    (v : Nat) (hv : v < f.numValues) :
    (2 + v, BladeNode.valueDef v) ∈ (build_blade_graph_for_func f cfg svs).nodeToBlade :=
  (goodState_build f cfg svs hwf).2.2.2 v hv

/-- The backward walk on the self-loop node of `loopGraph` runs out of any
amount of fuel: the Rust recursion diverges there. -/
theorem loopGraph_diverges : ∀ fuel, ancestors_of loopGraph fuel 2 = Option.none
  | 0 => rfl
  | fuel + 1 => by
    show (if is_source_node loopGraph 2 then some [2]
          else seqJoin ((loopGraph.inedgeSources 2).map
            (fun m => ancestors_of loopGraph fuel m))) = Option.none
    rw [if_neg (by decide), (by decide : loopGraph.inedgeSources 2 = [2])]
    show seqJoin [ancestors_of loopGraph fuel 2] = Option.none
    rw [loopGraph_diverges fuel]
    rfl

theorem setArg_args (d : InstData) (k v : Nat) :
    (d.setArg k v).args = d.args.set k v := by
  unfold InstData.setArg InstData.args
  by_cases h : k < d.fixedArgs.length
  · rw [if_pos h, List.set_append_left _ _ h]
  · rw [if_neg h, List.set_append_right _ _ (by omega)]

/-- After committing an emission, the target instruction's data is its old
data with the chosen argument slot overwritten. -/
theorem instOf_applyEmission (f : Func) (inst argnum : Nat) (emitted : List InstData)
    (masked parg nn : Nat) (hin : inst < f.insts.length) :
    (applyEmission f inst argnum emitted masked parg nn).instOf inst
      = (f.instOf inst).setArg argnum masked := by
  unfold applyEmission Func.instOf
  dsimp only
  rw [List.getD_append _ _ _ inst (by simpa using hin)]
  rw [List.getD_eq_getElem?_getD, List.getElem?_set_self']
  simp [List.getElem?_eq_getElem hin]

/-- C1: for every flow network, the edge set `min_cut` reconstructs from
the solver-returned source-side node set is a valid source-sink cut -
removing exactly those edges leaves no directed path from the global
source node to the global sink node - and the number of returned edges
equals the maximum flow value between source and sink under unit edge
capacities.  The external push-relabel solver enters through its contract
(spec 4.3): its returned node set contains the source, misses the sink,
and its maximum flow saturates every crossing edge, which is the
`flowValue = cut size` hypothesis; maximality of that flow is proved here
by weak duality, not assumed. -/
theorem C1_min_cut_is_valid_cut (g : FlowGraph) (S fl : List Nat)
    (hE : ∀ e ∈ g.edges, e.1 < g.numNodes ∧ e.2 < g.numNodes)
    (hs : g.source ∈ S) (ht : g.sink ∉ S) (hnd : S.Nodup)
    (hfl : IsFlow g fl) (hval : flowValue g fl = ((min_cut g S).length : Int)) :
    ¬ Reaches g (min_cut g S) g.source g.sink ∧
      IsMaxFlowValue g ((min_cut g S).length) := by
  refine ⟨min_cut_separates g S hs ht, ⟨fl, hfl, hval⟩, ?_⟩
  intro fl' hfl'
  exact flowValue_le_min_cut g fl' S hE hs ht hnd hfl'

/-- Witness for C1 on a three-node chain graph with one unit of flow. -/
theorem C1_witness :
    ¬ Reaches exCutGraph (min_cut exCutGraph [0]) exCutGraph.source exCutGraph.sink ∧
      IsMaxFlowValue exCutGraph ((min_cut exCutGraph [0]).length) :=
  C1_min_cut_is_valid_cut exCutGraph [0] [1, 1] (by decide) (by decide)
    (by decide) (by decide) (by decide) (by decide)

/-- C2: in the network built for any well-formed function, every result
of a non-fill load is marked as a source (an edge from the global source
node, node 0, to its `ValueDef` node) and the load has exactly one
associated `Sink` node; every store, branch and call instruction has
exactly one associated `Sink` node; and no instruction has two `Sink`
nodes. -/
theorem C2_classification_complete (f : Func) (cfg : Cfg) (svs : Bool) (hwf : WF f) :
    (∀ i ∈ layoutInsts f, (f.instOf i).op.can_load = true →
      ¬ ((f.instOf i).op = Opcode.fill ∨ (f.instOf i).op = Opcode.fillNop) →
      (∀ r ∈ (f.instOf i).results,
        (0, 2 + r) ∈ (build_blade_graph_for_func f cfg svs).graph.edges ∧
        (2 + r, BladeNode.valueDef r) ∈ (build_blade_graph_for_func f cfg svs).nodeToBlade) ∧
      sinkCount (build_blade_graph_for_func f cfg svs) i = 1) ∧
    (∀ i ∈ layoutInsts f,
      ((f.instOf i).op.can_store = true ∨ (f.instOf i).op.is_branch = true ∨
        (f.instOf i).op.is_call = true) →
      sinkCount (build_blade_graph_for_func f cfg svs) i = 1) ∧
    (∀ i, sinkCount (build_blade_graph_for_func f cfg svs) i ≤ 1) := by
  refine ⟨?_, ?_, ?_⟩
  · intro i hi hload hnf
    refine ⟨?_, ?_⟩
    · intro r hr
      refine ⟨build_source_edge f cfg svs hwf i hi (Or.inl hload) r hr, ?_⟩
      have hrlt : r < f.numValues := (instOK_of_WF hwf i).2 r hr
      exact build_valueNode_mem f cfg svs hwf r hrlt
    · rw [sinkCount_build f cfg svs hwf i, if_pos hi]
      have hic := can_load_not_call hload
      simp [expectedSinks, hload, hnf, hic]
  · intro i hi hop
    rw [sinkCount_build f cfg svs hwf i, if_pos hi]
    rcases hop with h | h | h
    · have hcl := can_store_not_load h
      have hic := can_store_not_call h
      simp [expectedSinks, hcl, h, hic]
    · have hcl := is_branch_not_load h
      have hcs := is_branch_not_store h
      have hic := is_branch_not_call h
      simp [expectedSinks, hcl, hcs, h, hic]
    · have hcl := is_call_not_load h
      have hcs := is_call_not_store h
      have hbr := is_call_not_branch h
      simp [expectedSinks, hcl, hcs, hbr, h]
  · intro i
    rw [sinkCount_build f cfg svs hwf i]
    by_cases hi : i ∈ layoutInsts f
    · rw [if_pos hi]
      exact expectedSinks_le_one _
    · rw [if_neg hi]
      omega

/-- Witness for C2 on the load/add/branch example: the load (instruction
0) has its result `v1` marked as a source and exactly one sink node, the
branch has exactly one sink node, and the add has none. -/
theorem C2_witness :
    ((0, 2 + 1) ∈ (build_blade_graph_for_func exFunc exCfg true).graph.edges ∧
      (2 + 1, BladeNode.valueDef 1)
        ∈ (build_blade_graph_for_func exFunc exCfg true).nodeToBlade) ∧
    sinkCount (build_blade_graph_for_func exFunc exCfg true) 0 = 1 ∧
    sinkCount (build_blade_graph_for_func exFunc exCfg true) 2 = 1 ∧
    sinkCount (build_blade_graph_for_func exFunc exCfg true) 1 ≤ 1 := by
  have h := C2_classification_complete exFunc exCfg true (by decide)
  have h0 := h.1 0 (by decide) (by decide) (by decide)
  exact ⟨h0.1 1 (by decide), h0.2, h.2.1 2 (by decide) (by decide), h.2.2 1⟩

/-- C4 (amended): for every network and node `n`, if `n` is a direct
target of an edge from the global source then `ancestors_of` finishes at
once and returns exactly `[n]` for every positive fuel; and if there is no
path from the global source to `n`, then any finished backward walk from
`n` returns the empty set.  The termination proviso in the second part is
forced by the counterexample: the unguarded recursion diverges on a cycle
with no path from the source, so "returns the empty set" only holds for
walks that finish. -/
theorem C4_ancestors_amended (g : FlowGraph) (n : Nat) :
    (is_source_node g n = true →
      ∀ fuel, ancestors_of g (fuel + 1) n = some [n]) ∧
    (¬ Reaches g [] g.source n →
      ∀ fuel r, ancestors_of g fuel n = some r → r = []) :=
  ⟨fun h fuel => ancestors_of_source_target g n fuel h,
   fun hnr fuel r h => ancestors_of_unreachable g fuel n r hnr h⟩

/-- Counterexample for C4 as stated: in the network the pass builds for
the self-looping block `block0(v0): jump block0(v0)`, the node of `v0`
(node 2) has no path from the global source, yet `ancestors_of` never
returns at all - the backward walk diverges around the `v0 → v0` cycle
instead of producing the empty set. -/
theorem C4_counterexample :
    (¬ Reaches loopGraph [] loopGraph.source 2) ∧ AncestorsDiverge loopGraph 2 := by
  constructor
  · exact not_reaches_of_closed [0] (by decide) (by decide) (by decide)
  · exact loopGraph_diverges

/-- Witness for C4 (amended): in the example network, `v1`'s node (node 3)
is a direct source target and traces to exactly itself; in the loop
network, the branch's sink node (node 3) has no path from the source and
its finished walk is empty. -/
theorem C4_witness :
    is_source_node (do_blade_graph exFunc exCfg).graph 3 = true ∧
    ancestors_of (do_blade_graph exFunc exCfg).graph (0 + 1) 3 = some [3] ∧
    (¬ Reaches loopGraph [] loopGraph.source 3) ∧
    ancestors_of loopGraph 1 3 = some [] := by
  have h1 : is_source_node (do_blade_graph exFunc exCfg).graph 3 = true := by decide
  have hnr : ¬ Reaches loopGraph [] loopGraph.source 3 :=
    not_reaches_of_closed [0] (by decide) (by decide) (by decide)
  have hval : ancestors_of loopGraph 1 3 = some [] := by decide
  refine ⟨h1, (C4_ancestors_amended (do_blade_graph exFunc exCfg).graph 3).1 h1 0,
    hnr, ?_⟩
  have hempty := (C4_ancestors_amended loopGraph 3).2 hnr 1 [] hval
  exact hval

/-- Fencing after a `ValueDef` node can fail for several reasons, but
never with the "Fencing after a sink instruction" panic. -/
theorem insert_fence_after_valueDef_ne_afterSink (fc : Func) (v : Nat)
    (s : BladeSetting) :
    insert_fence_after fc (BladeNode.valueDef v) s ≠ Except.error FenceErr.afterSink := by
  unfold insert_fence_after
  cases hdef : valueDefOf fc v with
  | none => simp [hdef]
  | some vd =>
    cases vd with
    | result inst k =>
      cases s with
      | lfence => simp [hdef]
      | lfencePerBlock =>
        simp only [hdef]
        unfold insert_fence_at_beginning_of_block
        cases instBlock fc inst <;> simp
      | none => simp [hdef]
      | slh => simp [hdef]
    | param blk k =>
      simp only [hdef]
      cases firstInst fc blk <;> simp

/-- C9: in every network built for a well-formed function, every outgoing
edge of the global source node (node 0) ends at a `ValueDef` node, never a
`Sink` node, and every incoming edge of the global sink node (node 1)
originates at a `Sink` node; consequently, for any cut edge whose source
endpoint is the global source node, the node handed to the fence planner
is a `ValueDef`, so `insert_fence_after`'s "fence after a sink" panic
branch is unreachable. -/
theorem C9_terminal_edge_shape (f : Func) (cfg : Cfg) (svs : Bool) (hwf : WF f) :
    (∀ e ∈ (build_blade_graph_for_func f cfg svs).graph.edges, e.1 = 0 →
      ∃ v, v < f.numValues ∧ e.2 = 2 + v ∧
        (e.2, BladeNode.valueDef v)
          ∈ (build_blade_graph_for_func f cfg svs).nodeToBlade) ∧
    (∀ e ∈ (build_blade_graph_for_func f cfg svs).graph.edges, e.2 = 1 →
      ∃ i, (e.1, BladeNode.sink i)
        ∈ (build_blade_graph_for_func f cfg svs).nodeToBlade) ∧
    (∀ S eid s d, eid ∈ min_cut (build_blade_graph_for_func f cfg svs).graph S →
      (build_blade_graph_for_func f cfg svs).graph.edges.get? eid = some (s, d) →
      s = (build_blade_graph_for_func f cfg svs).graph.source →
      ∃ v, alookup (build_blade_graph_for_func f cfg svs).nodeToBlade d
          = some (BladeNode.valueDef v) ∧
        ∀ (fc : Func) (setting : BladeSetting),
          insert_fence_after fc (BladeNode.valueDef v) setting
            ≠ Except.error FenceErr.afterSink) := by
  have hG := goodState_build f cfg svs hwf
  have hshape : EdgeShape f (dataflowPass f cfg (classifyPass svs f)) := hG.2.2.1
  refine ⟨?_, ?_, ?_⟩
  · intro e he h0
    obtain ⟨v, hv, hev, hm⟩ := (hshape e he).1 h0
    refine ⟨v, hv, hev, ?_⟩
    rw [hev]
    exact hm
  · intro e he h1
    exact (hshape e he).2 h1
  · intro S eid s d hcut hget hs
    have hmem : (s, d) ∈ (build_blade_graph_for_func f cfg svs).graph.edges :=
      List.get?_mem hget
    have hs0 : s = 0 := hs
    obtain ⟨v, hv, hdv, hm⟩ := (hshape (s, d) hmem).1 hs0
    have hk := keysOK_build f cfg svs
    refine ⟨v, ?_, fun fc setting => insert_fence_after_valueDef_ne_afterSink fc v setting⟩
    have hm' : (d, BladeNode.valueDef v)
        ∈ (dataflowPass f cfg (classifyPass svs f)).nodeToBlade := by
      have hdv' : d = 2 + v := hdv
      rw [hdv']
      exact hm
    exact alookup_of_mem_nodupKeys hm' hk.2

/-- Witness for C9 on the example network: the source edge `(0, 3)` ends
at `v1`'s value node, and the sink edge `(5, 1)` comes from the load's
sink node. -/
theorem C9_witness :
    (∃ v, v < exFunc.numValues ∧ (3 : Nat) = 2 + v ∧
      ((3 : Nat), BladeNode.valueDef v)
        ∈ (build_blade_graph_for_func exFunc exCfg true).nodeToBlade) ∧
    (∃ i, ((5 : Nat), BladeNode.sink i)
      ∈ (build_blade_graph_for_func exFunc exCfg true).nodeToBlade) := by
  have h := C9_terminal_edge_shape exFunc exCfg true (by decide)
  exact ⟨h.1 (0, 3) (by decide) rfl, h.2.1 (5, 1) (by decide) rfl⟩

/-- C10: the public pass builds the network with `store_values_are_sinks`
fixed to `true` (`do_blade_graph` is `build_blade_graph_for_func _ _
true`, blade.rs line 38), and therefore every argument of every store
instruction - the stored value, argument 0, included - is connected by an
edge to that store's `Sink` node. -/
theorem C10_store_values_are_sinks (f : Func) (cfg : Cfg) (hwf : WF f) :
    do_blade_graph f cfg = build_blade_graph_for_func f cfg true ∧
    ∀ i ∈ layoutInsts f, (f.instOf i).op.can_store = true →
      ∃ n, (n, BladeNode.sink i) ∈ (do_blade_graph f cfg).nodeToBlade ∧
        ∀ a ∈ (f.instOf i).args, (2 + a, n) ∈ (do_blade_graph f cfg).graph.edges := by
  refine ⟨rfl, ?_⟩
  intro i hi hcs
  exact build_store_edges f cfg hwf i hi hcs

/-- Witness for C10 on a single store: some sink node of the store
receives edges from both the stored value `v0` and the address `v1`. -/
theorem C10_witness :
    ∃ n, (n, BladeNode.sink 0) ∈ (do_blade_graph storeFunc storeCfg).nodeToBlade ∧
      ∀ a ∈ (storeFunc.instOf 0).args,
        (2 + a, n) ∈ (do_blade_graph storeFunc storeCfg).graph.edges :=
  (C10_store_values_are_sinks storeFunc storeCfg (by decide)).2 0 (by decide) (by decide)

/-- C3: under the `Lfence` and `LfencePerBlock` strategies the planner
classifies every cut edge `(a, b)` by endpoint.  When `a` is the global
source, the fence goes after the definition of `b`: after the defining
instruction (a `post_lfence` marker under `Lfence`, the per-block scan
under `LfencePerBlock`), or at the very start of the defining block when
`b` is a block parameter (under both settings).  When `b` is the global
sink, the fence goes before the point identified by `a`: before the
sink instruction, before the defining instruction of a result-defined
value, or at the start of the defining block of a parameter-defined
value.  Otherwise the fence goes before the definition point of `b`,
again split by whether `b` names a sink instruction, a result-defined
value, or a parameter-defined value. -/
theorem C3_fence_planner_classification (f : Func) (g : BladeGraph)
    (eid a b : Nat) (he : g.graph.edges.get? eid = some (a, b)) :
    (∀ v inst k, a = g.graph.source →
      alookup g.nodeToBlade b = some (BladeNode.valueDef v) →
      valueDefOf f v = some (VDef.result inst k) →
      do_blade_fence_edge f g BladeSetting.lfence eid = Except.ok (setPost f inst) ∧
      do_blade_fence_edge f g BladeSetting.lfencePerBlock eid
        = insert_fence_at_beginning_of_block f inst) ∧
    (∀ v blk k fi, a = g.graph.source →
      alookup g.nodeToBlade b = some (BladeNode.valueDef v) →
      valueDefOf f v = some (VDef.param blk k) →
      firstInst f blk = some fi →
      do_blade_fence_edge f g BladeSetting.lfence eid = Except.ok (setPre f fi) ∧
      do_blade_fence_edge f g BladeSetting.lfencePerBlock eid
        = Except.ok (setPre f fi)) ∧
    (∀ inst, a ≠ g.graph.source → b = g.graph.sink →
      alookup g.nodeToBlade a = some (BladeNode.sink inst) →
      do_blade_fence_edge f g BladeSetting.lfence eid = Except.ok (setPre f inst) ∧
      do_blade_fence_edge f g BladeSetting.lfencePerBlock eid
        = insert_fence_at_beginning_of_block f inst) ∧
    (∀ v inst k, a ≠ g.graph.source → b = g.graph.sink →
      alookup g.nodeToBlade a = some (BladeNode.valueDef v) →
      valueDefOf f v = some (VDef.result inst k) →
      do_blade_fence_edge f g BladeSetting.lfence eid = Except.ok (setPre f inst) ∧
      do_blade_fence_edge f g BladeSetting.lfencePerBlock eid
        = insert_fence_at_beginning_of_block f inst) ∧
    (∀ v inst k, a ≠ g.graph.source → b ≠ g.graph.sink →
      alookup g.nodeToBlade b = some (BladeNode.valueDef v) →
      valueDefOf f v = some (VDef.result inst k) →
      do_blade_fence_edge f g BladeSetting.lfence eid = Except.ok (setPre f inst) ∧
      do_blade_fence_edge f g BladeSetting.lfencePerBlock eid
        = insert_fence_at_beginning_of_block f inst) ∧
    (∀ inst, a ≠ g.graph.source → b ≠ g.graph.sink →
      alookup g.nodeToBlade b = some (BladeNode.sink inst) →
      do_blade_fence_edge f g BladeSetting.lfence eid = Except.ok (setPre f inst) ∧
      do_blade_fence_edge f g BladeSetting.lfencePerBlock eid
        = insert_fence_at_beginning_of_block f inst) ∧
    (∀ v blk k fi, a ≠ g.graph.source → b ≠ g.graph.sink →
      alookup g.nodeToBlade b = some (BladeNode.valueDef v) →
      valueDefOf f v = some (VDef.param blk k) →
      firstInst f blk = some fi →
      do_blade_fence_edge f g BladeSetting.lfence eid = Except.ok (setPre f fi) ∧
      do_blade_fence_edge f g BladeSetting.lfencePerBlock eid
        = Except.ok (setPre f fi)) ∧
    (∀ v blk k fi, a ≠ g.graph.source → b = g.graph.sink →
      alookup g.nodeToBlade a = some (BladeNode.valueDef v) →
      valueDefOf f v = some (VDef.param blk k) →
      firstInst f blk = some fi →
      do_blade_fence_edge f g BladeSetting.lfence eid = Except.ok (setPre f fi) ∧
      do_blade_fence_edge f g BladeSetting.lfencePerBlock eid
        = Except.ok (setPre f fi)) := by
  have hg : g.graph.edges[eid]? = some (a, b) := by
    rw [← List.get?_eq_getElem?]
    exact he
  refine ⟨?_, ?_, ?_, ?_, ?_, ?_, ?_, ?_⟩
  · intro v inst k hsrc hbn hdef
    constructor <;>
      simp [do_blade_fence_edge, hg, hsrc, hbn, insert_fence_after, hdef]
  · intro v blk k fi hsrc hbn hdef hfi
    constructor <;>
      simp [do_blade_fence_edge, hg, hsrc, hbn, insert_fence_after, hdef, hfi]
  · intro inst hsrc hsink han
    constructor <;>
      simp [do_blade_fence_edge, hg, hsrc, hsink, han, insert_fence_before]
  · intro v inst k hsrc hsink han hdef
    constructor <;>
      simp [do_blade_fence_edge, hg, hsrc, hsink, han, insert_fence_before, hdef]
  · intro v inst k hsrc hsink hbn hdef
    constructor <;>
      simp [do_blade_fence_edge, hg, hsrc, hsink, hbn, insert_fence_before, hdef]
  · intro inst hsrc hsink hbn
    constructor <;>
      simp [do_blade_fence_edge, hg, hsrc, hsink, hbn, insert_fence_before]
  · intro v blk k fi hsrc hsink hbn hdef hfi
    constructor <;>
      simp [do_blade_fence_edge, hg, hsrc, hsink, hbn, insert_fence_before, hdef,
        hfi]
  · intro v blk k fi hsrc hsink han hdef hfi
    constructor <;>
      simp [do_blade_fence_edge, hg, hsrc, hsink, han, insert_fence_before, hdef,
        hfi]

/-- Witness for C3 on the example network: the source edge `(0, 3)` under
`Lfence` fences after the load defining `v1`; the edge `(6, 1)` into the
global sink yields a fence before the branch; and the interior edge
`(4, 6)` into the node of the branch sink also yields a fence before the
branch. -/
theorem C3_witness :
    do_blade_fence_edge exFunc (do_blade_graph exFunc exCfg) BladeSetting.lfence 0
      = Except.ok (setPost exFunc 0) ∧
    do_blade_fence_edge exFunc (do_blade_graph exFunc exCfg) BladeSetting.lfence 3
      = Except.ok (setPre exFunc 2) ∧
    do_blade_fence_edge exFunc (do_blade_graph exFunc exCfg) BladeSetting.lfence 4
      = Except.ok (setPre exFunc 2) := by
  refine ⟨?_, ?_, ?_⟩
  · exact ((C3_fence_planner_classification exFunc (do_blade_graph exFunc exCfg)
      0 0 3 (by decide)).1 1 0 0 rfl (by decide) (by decide)).1
  · exact ((C3_fence_planner_classification exFunc (do_blade_graph exFunc exCfg)
      3 6 1 (by decide)).2.2.1 2 (by decide) rfl (by decide)).1
  · exact ((C3_fence_planner_classification exFunc (do_blade_graph exFunc exCfg)
      4 4 6 (by decide)).2.2.2.2.2.1 2 (by decide) (by decide) (by decide)).1

/-- C7: under per-block coarsening the pass scans backward in instruction
order from the target instruction `i` inside its block.  If a call,
branch, or indirect-branch instruction strictly preceding `i` is found
first (the nearest one, `lastBoundaryBefore`), that boundary instruction
gets a fence-after marker; if the block start is reached instead, the
block's first instruction gets a fence-before marker.  The final two
conjuncts pin down that a marker update touches nothing else: `setPost`
leaves `pre_lfence` untouched and only inserts into `post_lfence`, and
symmetrically for `setPre`. -/
theorem C7_per_block_coarsening (f : Func) (i b : Nat)
    (hb : instBlock f i = some b) :
    insert_fence_at_beginning_of_block f i
      = Except.ok (match lastBoundaryBefore f (f.blockOf b).insts
            ((f.blockOf b).insts.indexOf i) with
          | some j => setPost f ((f.blockOf b).insts.getD j 0)
          | Option.none => setPre f ((f.blockOf b).insts.getD 0 0)) ∧
    (∀ x, (setPost f x).pre_lfence = f.pre_lfence ∧
      (setPost f x).post_lfence = f.post_lfence.insert x) ∧
    (∀ x, (setPre f x).post_lfence = f.post_lfence ∧
      (setPre f x).pre_lfence = f.pre_lfence.insert x) := by
  refine ⟨?_, fun x => ⟨rfl, rfl⟩, fun x => ⟨rfl, rfl⟩⟩
  unfold insert_fence_at_beginning_of_block
  rw [hb]
  show Except.ok (scanBack f (f.blockOf b).insts ((f.blockOf b).insts.indexOf i)) = _
  rw [scanBack_spec f (f.blockOf b).insts ((f.blockOf b).insts.indexOf i)]

/-- Witness for C7: with a call at position 0 and a load at position 1 in
the same block, fencing at the beginning of the load's fine-grained block
marks a fence after the call. -/
theorem C7_witness :
    insert_fence_at_beginning_of_block cFunc 1 = Except.ok (setPost cFunc 0) := by
  have h := (C7_per_block_coarsening cFunc 1 0 (by decide)).1
  rw [h]
  rfl

/-- C8: in SLH bounds selection for a load, more than one bounds-carrying
argument is fatal; exactly one is used together with its bounds; none,
with fallback permitted, fabricates `lower = args[0]` and `upper =
args[0] + FAKE_SLH_ARRAY_LENGTH_BYTES` through a fresh `iadd_imm`, marked
not directly annotated; none, with fallback forbidden, is fatal
(missing-bounds). -/
theorem C8_bounds_selection (allowFake : Bool) (f : Func) (inst : Nat) :
    (∀ x y rest, (f.instOf inst).args.enum.filter
          (fun p => (boundsOf f p.2).isSome) = x :: y :: rest →
      selectSlhBounds allowFake f inst = Except.error SlhErr.multiplePointerArgs) ∧
    (∀ num arg bnd, (f.instOf inst).args.enum.filter
          (fun p => (boundsOf f p.2).isSome) = [(num, arg)] →
      boundsOf f arg = some bnd →
      selectSlhBounds allowFake f inst
        = Except.ok { argnum := num, arg := arg, bnds := bnd, emitted := [] }) ∧
    (∀ p, (f.instOf inst).args.enum.filter
          (fun q => (boundsOf f q.2).isSome) = [] →
      (f.instOf inst).args.head? = some p → allowFake = true →
      selectSlhBounds allowFake f inst
        = Except.ok
            { argnum := 0, arg := p
            , bnds := { lower := p, upper := f.numValues, directly_annotated := false }
            , emitted := [{ op := Opcode.iaddImm, fixedArgs := [p], varArgs := []
                          , results := [f.numValues]
                          , imm := (FAKE_SLH_ARRAY_LENGTH_BYTES : Int)
                          , cc := Option.none }] }) ∧
    ((f.instOf inst).args.enum.filter
        (fun q => (boundsOf f q.2).isSome) = [] → allowFake = false →
      selectSlhBounds allowFake f inst = Except.error SlhErr.missingBounds) := by
  refine ⟨?_, ?_, ?_, ?_⟩
  · intro x y rest hfil
    unfold selectSlhBounds
    rw [hfil]
  · intro num arg bnd hfil hb
    unfold selectSlhBounds
    rw [hfil]
    simp [hb]
  · intro p hfil hhead hak
    unfold selectSlhBounds
    rw [hfil, hak, hhead]
    simp
  · intro hfil hak
    unfold selectSlhBounds
    rw [hfil, hak]
    rfl

/-- Witness for C8, all three non-fatal-free outcomes at concrete loads:
exactly one bounds-carrying argument is used as is; no bounds with
fallback permitted fabricates the nominal-length bounds; no bounds with
fallback forbidden is fatal. -/
theorem C8_witness :
    selectSlhBounds true slhFunc 0
      = Except.ok
          { argnum := 0, arg := 2
          , bnds := { lower := 0, upper := 1, directly_annotated := true }
          , emitted := [] } ∧
    selectSlhBounds true slhFuncNoBounds 0
      = Except.ok
          { argnum := 0, arg := 2
          , bnds := { lower := 2, upper := 4, directly_annotated := false }
          , emitted := [{ op := Opcode.iaddImm, fixedArgs := [2], varArgs := []
                        , results := [4], imm := (FAKE_SLH_ARRAY_LENGTH_BYTES : Int)
                        , cc := Option.none }] } ∧
    selectSlhBounds false slhFuncNoBounds 0 = Except.error SlhErr.missingBounds := by
  refine ⟨?_, ?_, ?_⟩
  · exact (C8_bounds_selection true slhFunc 0).2.1 0 2
      { lower := 0, upper := 1, directly_annotated := true } (by decide) (by decide)
  · exact (C8_bounds_selection true slhFuncNoBounds 0).2.2.1 2 (by decide)
      (by decide) rfl
  · exact (C8_bounds_selection false slhFuncNoBounds 0).2.2.2 (by decide) rfl

/-- C6: the deduplicating ledger makes hardening idempotent per target.
Requesting masking on the same `BladeNode` any number of times - here, a
second occurrence of `bn` anywhere in the request stream - leaves both the
ledger and the function exactly as if the repeat request had never been
made, and any request for an already-hardened target is a no-op on the
state. -/
theorem C6_slh_dedup (st : SLHContext × Func) (l1 l2 l3 : List BladeNode)
    (bn : BladeNode) :
    (l1 ++ bn :: l2 ++ bn :: l3).foldl SLHContext.do_slh_on st
      = (l1 ++ bn :: l2 ++ l3).foldl SLHContext.do_slh_on st ∧
    (∀ st' : SLHContext × Func, bn ∈ st'.1.bladenodes_done →
      SLHContext.do_slh_on st' bn = st') := by
  constructor
  · rw [List.foldl_append, List.foldl_append, List.foldl_cons, List.foldl_cons,
      List.foldl_append, List.foldl_append, List.foldl_cons]
    have hdone : bn ∈ (l2.foldl SLHContext.do_slh_on
        (SLHContext.do_slh_on (l1.foldl SLHContext.do_slh_on st) bn)).1.bladenodes_done :=
      foldl_do_slh_on_done_mono l2 _
        (do_slh_on_done_self (l1.foldl SLHContext.do_slh_on st) bn)
    rw [do_slh_on_of_done hdone]
  · intro st' h
    exact do_slh_on_of_done h

/-- Witness for C6: a concrete repeated request stream on the bounds-
annotated load collapses to the deduplicated stream, and a repeat request
on a ledger that already has the target is a no-op. -/
theorem C6_witness :
    ([] ++ BladeNode.valueDef 3 :: [] ++ BladeNode.valueDef 3 :: []).foldl
        SLHContext.do_slh_on (⟨[]⟩, slhFunc)
      = ([] ++ BladeNode.valueDef 3 :: [] ++ []).foldl
          SLHContext.do_slh_on (⟨[]⟩, slhFunc) ∧
    SLHContext.do_slh_on (⟨[BladeNode.valueDef 3]⟩, slhFunc) (BladeNode.valueDef 3)
      = (⟨[BladeNode.valueDef 3]⟩, slhFunc) := by
  have h := C6_slh_dedup (⟨[]⟩, slhFunc) [] [] [] (BladeNode.valueDef 3)
  exact ⟨h.1, h.2 (⟨[BladeNode.valueDef 3]⟩, slhFunc) (by decide)⟩

/-- C5: hardening a load whose pointer argument carries bounds `[lower,
upper)` emits exactly the branch-free sequence zero, all-ones,
compare/select on `UnsignedGreaterThanOrEqual` against `lower`,
operand-size constant, adjusted upper bound, compare/select on
`UnsignedLessThanOrEqual`, and the final `band` - no emitted instruction
is a (conditional or indirect) branch - rewrites the load's pointer
operand slot in place to the masked value, and the emitted computation
evaluates to `pointer AND mask` with `mask = (pointer uge lower ?
all-ones : 0)` refined by `(pointer ule upper - operand_size ? mask :
0)`. -/
theorem C5_slh_hardening (f : Func) (v inst k argnum parg : Nat) (bnds : BoundsInfo)
    (hdef : valueDefOf f v = some (VDef.result inst k))
    (hload : (f.instOf inst).op.can_load = true)
    (hsel : (f.instOf inst).args.enum.filter
        (fun p => (boundsOf f p.2).isSome) = [(argnum, parg)])
    (hbnd : boundsOf f parg = some bnds)
    (hin : inst < f.insts.length) :
    (∃ fc, _do_slh_on f (BladeNode.valueDef v)
        = Except.ok (fc, slhMaskSeq f parg bnds v f.numValues) ∧
      (fc.instOf inst).args
        = (f.instOf inst).args.set argnum (f.numValues + 8)) ∧
    (∀ d ∈ slhMaskSeq f parg bnds v f.numValues,
      d.op.is_branch = false ∧ d.op.is_indirect_branch = false) ∧
    (∀ w env P L U, env parg = EVal.int P → env bnds.lower = EVal.int L →
      env bnds.upper = EVal.int U → parg < f.numValues →
      bnds.lower < f.numValues → bnds.upper < f.numValues →
      U < 2 ^ w → typeBytes f v ≤ U →
      evalSeq w env (slhMaskSeq f parg bnds v f.numValues) (f.numValues + 8)
        = EVal.int (Nat.land P
            (if P ≤ U - typeBytes f v
             then (if L ≤ P then 2 ^ w - 1 else 0) else 0))) := by
  have hselB : selectSlhBounds ALLOW_FAKE_SLH_BOUNDS f inst
      = Except.ok { argnum := argnum, arg := parg, bnds := bnds, emitted := [] } := by
    unfold selectSlhBounds
    rw [hsel]
    simp [hbnd]
  refine ⟨?_, ?_, ?_⟩
  · refine ⟨applyEmission f inst argnum (slhMaskSeq f parg bnds v f.numValues)
      (f.numValues + 8) parg (f.numValues + 9), ?_, ?_⟩
    · simp [_do_slh_on, hdef, hload, hselB]
    · rw [instOf_applyEmission f inst argnum _ _ _ _ hin, setArg_args]
  · intro d hd
    simp only [slhMaskSeq, List.mem_cons, List.not_mem_nil, or_false] at hd
    rcases hd with rfl | rfl | rfl | rfl | rfl | rfl | rfl | rfl | rfl <;>
      exact ⟨rfl, rfl⟩
  · intro w env P L U hP hL hU hpv hlv huv hUw hS
    exact evalSeq_slhMaskSeq w f parg bnds v f.numValues env P L U
      hpv hlv huv hP hL hU hUw hS

/-- Witness for C5: on the bounds-annotated load, with an 8-bit word and
an in-bounds pointer, the emitted sequence masks with all-ones and leaves
the pointer value 100 intact. -/
theorem C5_witness :
    evalSeq 8 slhEnv
        (slhMaskSeq slhFunc 2
          { lower := 0, upper := 1, directly_annotated := true } 3 4) 12
      = EVal.int 100 := by
  have h := (C5_slh_hardening slhFunc 3 0 0 0 2
      { lower := 0, upper := 1, directly_annotated := true }
      (by decide) (by decide) (by decide) (by decide) (by decide)).2.2
      8 slhEnv 100 64 200 rfl rfl rfl (by decide) (by decide) (by decide)
      (by decide) (by decide)
  simpa using h
